import Mathlib

/-!
# Text files service: tokenizer, statistics and request pipeline

A shallow embedding of the Go sources `reader.go`, `statistics.go` and
`handler.go`, with the properties of the service stated and proved over it.

Go `byte` values are natural numbers, Go `string`s and `[]byte`s are lists.
-/

namespace TextFiles

/-! ## reader.go -/

/-- Go's `error` values that the tokenizer distinguishes. -/
inductive error where
  | nil
  | EOF
  deriving DecidableEq, Repr

/-- Model of an `io.Reader` over a finite stream: the payloads of its coming
successful `Read` calls (each at most the length of the buffer it is given);
once they are used up every `Read` returns `(0, io.EOF)`. -/
abbrev Reader := List (List Nat)

/-- The built-in `copy(dst, src)`: the first `min (len dst) (len src)` bytes of
`dst` are overwritten, the rest of `dst` keeps its old content. -/
def copy (dst src : List Nat) : List Nat :=
  src.take dst.length ++ dst.drop src.length

/-- Helper of `bytesReader`: one payload per `Read` call. -/
def bytesReader.go (n : Nat) : Nat → List Nat → Reader
  | 0, _ => []
  | fuel + 1, s => if s = [] then [] else s.take n :: bytesReader.go n fuel (s.drop n)

/-- A `bytes.Reader` (or a regular `os.File`) holding the stream `s`, read
through a buffer of `n` bytes: every `Read` delivers the next `min n remaining`
bytes, and `(0, io.EOF)` once nothing remains. -/
def bytesReader (n : Nat) (s : List Nat) : Reader :=
  bytesReader.go n s.length s

/-- The struct `wordReader`. -/
structure wordReader where
  reader : Reader
  rbuf : List Nat
  pos : Nat
  wbuf : List Nat
  deriving DecidableEq, Repr

/-- The constructor `NewWordReader`: a zeroed read buffer of 1024 bytes. -/
def NewWordReader (r : Reader) : wordReader :=
  { reader := r, rbuf := List.replicate 1024 0, pos := 0, wbuf := [] }

/-- The method `wordReader.process`: ASCII letters are kept, every other byte
becomes 0. -/
def process (c : Nat) : Nat :=
  if c ≥ 97 ∧ c ≤ 122 then c
  else if c ≥ 65 ∧ c ≤ 90 then c
  else 0

/-- The inner loop of `wordReader.Read`, run over the unread part of `rbuf`
(`rbuf[pos:]`): it stops with a word at the first separator met while `wbuf`
is non-empty, or with nothing when the buffer is used up. It returns the word,
the new `pos` and the new `wbuf`. -/
def scan : List Nat → Nat → List Nat → Option (List Nat) × Nat × List Nat
  | [], pos, wbuf => (none, pos, wbuf)
  | c :: rest, pos, wbuf =>
    if process c = 0 then
      if wbuf.length > 0 then (some wbuf, pos + 1, [])
      else scan rest (pos + 1) wbuf
    else scan rest (pos + 1) (wbuf ++ [process c])

/-- The outer loop of `wordReader.Read`: scan the buffer; when it is used up
refill it from the reader (the byte count returned by `reader.Read` is
dropped, as in the source) and start again at `pos = 0`; at `io.EOF` hand out
what is left in `wbuf`, if anything. -/
def wordReader.Read.loop : Reader → List Nat → Nat → List Nat →
    (List Nat × error) × wordReader
  | [], rbuf, pos, wbuf =>
    match scan (rbuf.drop pos) pos wbuf with
    | (some w, pos1, wbuf1) => ((w, error.nil), ⟨[], rbuf, pos1, wbuf1⟩)
    | (none, pos1, wbuf1) =>
      if wbuf1.length > 0 then ((wbuf1, error.nil), ⟨[], rbuf, pos1, []⟩)
      else (([], error.EOF), ⟨[], rbuf, pos1, wbuf1⟩)
  | c :: cs, rbuf, pos, wbuf =>
    match scan (rbuf.drop pos) pos wbuf with
    | (some w, pos1, wbuf1) => ((w, error.nil), ⟨c :: cs, rbuf, pos1, wbuf1⟩)
    | (none, _, wbuf1) => wordReader.Read.loop cs (copy rbuf c) 0 wbuf1

/-- The method `wordReader.Read`. -/
def wordReader.Read (r : wordReader) : (List Nat × error) × wordReader :=
  wordReader.Read.loop r.reader r.rbuf r.pos r.wbuf

/-- Successive `Read` calls until the first `io.EOF`, at most `fuel` of them:
the words returned, and whether `io.EOF` was reached. -/
def readWords : Nat → wordReader → List (List Nat) × Bool
  | 0, _ => ([], false)
  | fuel + 1, r =>
    match r.Read with
    | ((_, error.EOF), _) => ([], true)
    | ((w, error.nil), r1) =>
      let (ws, done) := readWords fuel r1
      (w :: ws, done)

/-- A number of `Read` calls that always reaches `io.EOF`. -/
def readFuel (r : wordReader) : Nat :=
  (r.reader.length + 1) * (r.rbuf.length + 1) + 2

/-- An ASCII letter, `a`-`z` or `A`-`Z`. -/
def isLetter (c : Nat) : Bool :=
  (97 ≤ c && c ≤ 122) || (65 ≤ c && c ≤ 90)

/-- The maximal runs of ASCII letters of a stream, in stream order. -/
def maximalRuns (s : List Nat) : List (List Nat) :=
  (s.splitOnP (fun c => !isLetter c)).filter (fun w => w ≠ [])

/-- The bytes of a string literal. -/
def bytes (s : String) : List Nat := s.toList.map Char.toNat

/-! ## statistics.go -/

/-- The struct `stat`; `F` stands for `float64`. -/
structure stat (F : Type) where
  NumFiles : Nat
  AvgNumAlphaCharsPerFile : F
  StdNumAlphaCharsPerFile : F
  AvgWordLength : F
  StdWordLength : F
  TotalBytes : Nat

/-- One entry of the listing `ioutil.ReadDir` returns, as `dirStatistics` uses
it: `IsDir()` and `Size()` of the entry, and what `os.Open` gives for it (the
reader over its bytes; `none` when the file cannot be opened). -/
structure DirEntry where
  IsDir : Bool
  Size : Nat
  file : Option Reader

/-- The inner loop of `dirStatistics`: read the words of one file until
`io.EOF`, adding each length to `alphaChars` and appending it to `wordLens`.
`fuel` bounds the number of `Read` calls; `none` is returned when it runs
out. The `float64` values are whole numbers and kept as naturals. -/
def dirStatistics.words : Nat → wordReader → Nat → List Nat → Option (Nat × List Nat)
  | 0, _, _, _ => none
  | fuel + 1, reader, alphaChars, wordLens =>
    match reader.Read with
    | ((_, error.EOF), _) => some (alphaChars, wordLens)
    | ((s, error.nil), reader1) =>
      dirStatistics.words fuel reader1 (alphaChars + s.length) (wordLens ++ [s.length])

/-- The loop of `dirStatistics` over the entries: the running values of
`s.NumFiles`, `s.TotalBytes`, `wordLens` and `alphaCharsPerFile`; `none` when
a file cannot be opened. -/
def dirStatistics.files : List DirEntry → Nat × Nat × List Nat × List Nat →
    Option (Nat × Nat × List Nat × List Nat)
  | [], acc => some acc
  | file :: rest, (numFiles, totalBytes, wordLens, alphaCharsPerFile) =>
    if file.IsDir then
      dirStatistics.files rest (numFiles, totalBytes, wordLens, alphaCharsPerFile)
    else
      match file.file with
      | none => none
      | some f =>
        match dirStatistics.words (readFuel (NewWordReader f)) (NewWordReader f) 0 wordLens with
        | none => none
        | some (alphaChars, wordLens1) =>
          dirStatistics.files rest
            (numFiles + 1, totalBytes + file.Size, wordLens1, alphaCharsPerFile ++ [alphaChars])

/-- The function `dirStatistics`. `isDir` is what `os.Stat(dirname)` reports
(`none` when it fails), `files` is the listing of `ioutil.ReadDir(dirname)`
(`none` when it fails), and `Mean` and `StandardDeviation` are the functions
of the package `stats`. The result is `none` where the source returns an
error. -/
def dirStatistics {F : Type} (Mean StandardDeviation : List Nat → F)
    (isDir : Option Bool) (files : Option (List DirEntry)) : Option (stat F) :=
  match isDir with
  | none => none
  | some false => none
  | some true =>
    match files with
    | none => none
    | some files =>
      match dirStatistics.files files (0, 0, [], []) with
      | none => none
      | some (numFiles, totalBytes, wordLens, alphaCharsPerFile) =>
        some
          { NumFiles := numFiles
            AvgNumAlphaCharsPerFile := Mean alphaCharsPerFile
            StdNumAlphaCharsPerFile := StandardDeviation alphaCharsPerFile
            AvgWordLength := Mean wordLens
            StdWordLength := StandardDeviation wordLens
            TotalBytes := totalBytes }

/-- The arithmetic mean `stats.Mean` computes, as an exact rational; `none`
stands for the `NaN` it returns on an empty input. -/
def Mean (input : List Nat) : Option ℚ :=
  if input.length = 0 then none
  else some ((input.sum : ℚ) / (input.length : ℚ))

/-! ## Strings and paths (Go standard library, Unix) -/

/-- A Go `string`, as the list of its characters. -/
abbrev GoString := List Char

/-- Go's `strings.HasPrefix`. -/
def HasPrefix (s pre : GoString) : Bool := pre.isPrefixOf s

/-- Go's `strings.HasSuffix`. -/
def HasSuffix (s suf : GoString) : Bool := suf.isSuffixOf s

/-- Go's `strings.TrimPrefix`. -/
def TrimPrefix (s pre : GoString) : GoString :=
  if HasPrefix s pre then s.drop pre.length else s

/-- The elements of a path: the pieces between its separators, empty ones
included. -/
def elements : GoString → List GoString
  | [] => [[]]
  | c :: cs =>
    if c = '/' then [] :: elements cs
    else
      match elements cs with
      | [] => [[c]]
      | e :: es => (c :: e) :: es

/-- One element met by `filepath.Clean`, the elements kept so far being on a
stack whose head is the last one: empty and `.` elements are dropped, `..`
removes the last kept element when there is one that is not itself `..`, is
dropped at the root of a rooted path and is kept otherwise, any other element
is kept. -/
def cleanStep (rooted : Bool) (stk : List GoString) (e : GoString) : List GoString :=
  if e = [] ∨ e = ['.'] then stk
  else if e = ['.', '.'] then
    match stk with
    | [] => if rooted then [] else [e]
    | top :: below => if top = ['.', '.'] then e :: stk else below
  else e :: stk

/-- The path written out from the stack of kept elements. -/
def render (rooted : Bool) (stk : List GoString) : GoString :=
  if rooted then '/' :: ['/'].intercalate stk.reverse
  else if stk = [] then ['.']
  else ['/'].intercalate stk.reverse

/-- Whether a path starts with the separator. -/
def isRooted (p : GoString) : Bool := p.head? = some '/'

/-- Go's `filepath.Clean` on Unix: the shortest path equivalent to `p` by
purely lexical processing. -/
def Clean (p : GoString) : GoString :=
  if p = [] then ['.']
  else render (isRooted p) ((elements p).foldl (cleanStep (isRooted p)) [])

/-- Go's `strings.Join`. -/
def stringsJoin (elems : List GoString) (sep : GoString) : GoString :=
  sep.intercalate elems

/-- Go's `filepath.Join`: leading empty elements are ignored, the rest is
joined with separators and cleaned; the result is empty when every element
is empty. -/
def Join (elem : List GoString) : GoString :=
  match elem.dropWhile (fun e => e = []) with
  | [] => []
  | es => Clean (stringsJoin es ['/'])

/-- Go's `filepath.Dir`: the path up to its last separator, cleaned. -/
def Dir (p : GoString) : GoString :=
  Clean ((p.reverse.dropWhile (fun c => c ≠ '/')).reverse)

/-! ## The file system (package os on Unix, without symbolic links) -/

/-- The system errors the model produces. -/
inductive Errno where
  | ENOENT
  | ENOTDIR
  | EISDIR
  | ENOTEMPTY
  | EBUSY
  | EBADF
  deriving DecidableEq, Repr

/-- Go's `os.IsNotExist`. -/
def IsNotExist (e : Errno) : Bool := e = Errno.ENOENT

/-- A file system object: a regular file with its content, or a directory. -/
inductive Node where
  | file (data : GoString)
  | dir
  deriving DecidableEq, Repr

/-- What `os.FileInfo.IsDir` reports. -/
def Node.IsDir : Node → Bool
  | Node.file _ => false
  | Node.dir => true

/-- A file system: the working directory of the process (its elements from
the root) and the objects that exist, each under the list of elements that
leads to it from the root. The root itself always exists. -/
structure FS where
  cwd : List GoString
  nodes : List (List GoString × Node)
  deriving DecidableEq, Repr

/-- The object stored under an absolute list of elements. -/
def FS.get (fs : FS) (k : List GoString) : Option Node :=
  if k = [] then some Node.dir
  else (fs.nodes.find? (fun e => e.1 = k)).map (fun e => e.2)

/-- Store an object under `k`, replacing what was there. -/
def FS.set (fs : FS) (k : List GoString) (n : Node) : FS :=
  { fs with nodes := (k, n) :: fs.nodes.filter (fun e => e.1 ≠ k) }

/-- Drop the object stored under `k`. -/
def FS.erase (fs : FS) (k : List GoString) : FS :=
  { fs with nodes := fs.nodes.filter (fun e => e.1 ≠ k) }

/-- Go's `os.Getwd`; the working directory exists, so the call succeeds. -/
def Getwd (fs : FS) : GoString := '/' :: ['/'].intercalate fs.cwd

/-- The absolute list of elements a path names: a relative path starts from
the working directory, `.` and empty elements are skipped, `..` goes one
level up and stays at the root. -/
def FS.resolve (fs : FS) (p : GoString) : List GoString :=
  ((elements p).foldl (cleanStep true) (if isRooted p then [] else fs.cwd.reverse)).reverse

/-- Follow the elements `rest` down from the directory `cur`: every object on
the way has to be a directory. -/
def FS.walk (fs : FS) : List GoString → List GoString → Except Errno Node
  | cur, [] =>
    match fs.get cur with
    | some n => Except.ok n
    | none => Except.error Errno.ENOENT
  | cur, e :: rest =>
    match fs.get cur with
    | some Node.dir => FS.walk fs (cur ++ [e]) rest
    | some (Node.file _) => Except.error Errno.ENOTDIR
    | none => Except.error Errno.ENOENT

/-- Path lookup as the system calls do it: the empty path names nothing, and
a path with a trailing separator has to name a directory. -/
def FS.lookup (fs : FS) (p : GoString) : Except Errno Node :=
  if p = [] then Except.error Errno.ENOENT
  else
    match fs.walk [] (fs.resolve p) with
    | Except.ok (Node.file d) =>
      if HasSuffix p ['/'] then Except.error Errno.ENOTDIR else Except.ok (Node.file d)
    | r => r

/-- Go's `os.Stat`. -/
def Stat (fs : FS) (name : GoString) : Except Errno Node := fs.lookup name

/-- Helper of `MkdirAll`: create the missing directories along `rest`, below
`cur`. -/
def MkdirAll.go : FS → List GoString → List GoString → Except Errno FS
  | fs, _, [] => Except.ok fs
  | fs, cur, e :: rest =>
    match fs.get (cur ++ [e]) with
    | some Node.dir => MkdirAll.go fs (cur ++ [e]) rest
    | some (Node.file _) => Except.error Errno.ENOTDIR
    | none => MkdirAll.go (fs.set (cur ++ [e]) Node.dir) (cur ++ [e]) rest

/-- Go's `os.MkdirAll`: create the directory `path` and every missing parent;
it fails when an object on the way is a regular file. -/
def MkdirAll (fs : FS) (path : GoString) : Except Errno FS :=
  if path = [] then Except.error Errno.ENOENT
  else MkdirAll.go fs [] (fs.resolve path)

/-- Go's `os.OpenFile(name, flag|os.O_WRONLY, perm)` with `flag` made of
`O_CREATE` and `O_TRUNC`: the file system after the call and the file opened
(its absolute list of elements). A directory cannot be opened for writing, a
name with a trailing separator cannot be created, and the parent has to be an
existing directory. -/
def OpenFile (fs : FS) (name : GoString) (create trunc : Bool) :
    Except Errno (FS × List GoString) :=
  if name = [] then Except.error Errno.ENOENT
  else
    match fs.walk [] (fs.resolve name).dropLast with
    | Except.error e => Except.error e
    | Except.ok (Node.file _) => Except.error Errno.ENOTDIR
    | Except.ok Node.dir =>
      match fs.get (fs.resolve name) with
      | some Node.dir => Except.error Errno.EISDIR
      | some (Node.file _) =>
        if HasSuffix name ['/'] then Except.error Errno.ENOTDIR
        else if trunc then Except.ok (fs.set (fs.resolve name) (Node.file []), fs.resolve name)
        else Except.ok (fs, fs.resolve name)
      | none =>
        if ¬ create then Except.error Errno.ENOENT
        else if HasSuffix name ['/'] then Except.error Errno.EISDIR
        else Except.ok (fs.set (fs.resolve name) (Node.file []), fs.resolve name)

/-- Go's `(*os.File).Write` on a file just opened for writing: the bytes go to
the start of the file, over what was there. -/
def FileWrite (fs : FS) (file : List GoString) (b : GoString) : Except Errno FS :=
  match fs.get file with
  | some (Node.file d) => Except.ok (fs.set file (Node.file (b ++ d.drop b.length)))
  | _ => Except.error Errno.EBADF

/-- Go's `ioutil.ReadFile`. -/
def ReadFile (fs : FS) (name : GoString) : Except Errno GoString :=
  match fs.lookup name with
  | Except.ok (Node.file d) => Except.ok d
  | Except.ok Node.dir => Except.error Errno.EISDIR
  | Except.error e => Except.error e

/-- Go's `os.Remove`: a regular file is unlinked, a directory is removed when
it is empty. -/
def Remove (fs : FS) (name : GoString) : Except Errno FS :=
  match fs.lookup name with
  | Except.error e => Except.error e
  | Except.ok (Node.file _) => Except.ok (fs.erase (fs.resolve name))
  | Except.ok Node.dir =>
    if fs.resolve name = [] then Except.error Errno.EBUSY
    else if fs.nodes.any (fun e => e.1 ≠ [] ∧ e.1.dropLast = fs.resolve name) then
      Except.error Errno.ENOTEMPTY
    else Except.ok (fs.erase (fs.resolve name))

/-! ## Media types (package mime) -/

/-- Go's `unicode.IsSpace`. -/
def isSpace (c : Char) : Bool :=
  c.toNat = 32 || (9 ≤ c.toNat && c.toNat ≤ 13) || c.toNat = 0x85 || c.toNat = 0xA0 ||
  c.toNat = 0x1680 || (0x2000 ≤ c.toNat && c.toNat ≤ 0x200a) || c.toNat = 0x2028 ||
  c.toNat = 0x2029 || c.toNat = 0x202f || c.toNat = 0x205f || c.toNat = 0x3000

/-- Go's `strings.ToLower`, on the ASCII letters. -/
def ToLower (s : GoString) : GoString := s.map Char.toLower

/-- Go's `strings.TrimLeftFunc(s, unicode.IsSpace)`. -/
def trimLeftSpace (s : GoString) : GoString := s.dropWhile isSpace

/-- Go's `strings.TrimSpace`. -/
def TrimSpace (s : GoString) : GoString :=
  ((s.dropWhile isSpace).reverse.dropWhile isSpace).reverse

/-- The `tspecials` of RFC 1521 and RFC 2045. -/
def isTSpecial (c : Char) : Bool :=
  ['(', ')', '<', '>', '@', ',', ';', ':', '\\', '"', '/', '[', ']', '?', '='].contains c

/-- A character allowed in a token. -/
def isTokenChar (c : Char) : Bool :=
  c.toNat > 0x20 && c.toNat < 0x7f && !isTSpecial c

/-- The function `consumeToken` of package mime: the longest leading token and
the rest. -/
def consumeToken (v : GoString) : GoString × GoString :=
  (v.takeWhile isTokenChar, v.dropWhile isTokenChar)

/-- The body of a quoted string, after its opening quote: the characters up
to the closing quote (a backslash before a `tspecial` is dropped), and what
follows that quote; nothing when a line break comes first or the quote is
never closed. -/
def consumeQuoted : GoString → GoString → Option (GoString × GoString)
  | [], _ => none
  | [c], acc =>
    if c = '"' then some (acc.reverse, [])
    else none
  | c :: d :: ds, acc =>
    if c = '"' then some (acc.reverse, d :: ds)
    else if c = '\\' ∧ isTSpecial d then consumeQuoted ds (d :: acc)
    else if c = '\r' ∨ c = '\n' then none
    else consumeQuoted (d :: ds) (c :: acc)

/-- The function `consumeValue` of package mime: a token or a quoted
string. -/
def consumeValue (v : GoString) : GoString × GoString :=
  match v with
  | [] => ([], [])
  | c :: cs =>
    if c ≠ '"' then consumeToken v
    else
      match consumeQuoted cs [] with
      | some r => r
      | none => ([], v)

/-- The function `consumeMediaParam` of package mime: one `; name = value`
parameter, the name lower-cased; the name is empty when none could be read. -/
def consumeMediaParam (v : GoString) : GoString × GoString × GoString :=
  match trimLeftSpace v with
  | [] => ([], [], v)
  | c :: rest =>
    if c ≠ ';' then ([], [], v)
    else
      let (param, rest) := consumeToken (trimLeftSpace rest)
      if ToLower param = [] then ([], [], v)
      else
        match trimLeftSpace rest with
        | [] => ([], [], v)
        | c :: rest =>
          if c ≠ '=' then ([], [], v)
          else
            let (value, rest2) := consumeValue (trimLeftSpace rest)
            if value = [] ∧ rest2 = trimLeftSpace rest then ([], [], v)
            else (ToLower param, value, rest2)

/-- The function `checkMediaTypeDisposition` of package mime: a token,
optionally followed by a slash and a second token. -/
def checkMediaTypeDisposition (s : GoString) : Bool :=
  let (typ, rest) := consumeToken s
  if typ = [] then false
  else
    match rest with
    | [] => true
    | c :: rest =>
      if c ≠ '/' then false
      else
        let (subtype, rest) := consumeToken rest
        if subtype = [] then false else rest = []

/-- The parameter loop of `mime.ParseMediaType`, for parameters without the
`*` of RFC 2231: the map of the parameters read, or nothing on a malformed or
contradictory parameter. `fuel` bounds the number of parameters. -/
def parseParams : Nat → GoString → List (GoString × GoString) →
    Option (List (GoString × GoString))
  | 0, _, _ => none
  | fuel + 1, v, params =>
    match trimLeftSpace v with
    | [] => some params
    | v1 =>
      match consumeMediaParam v1 with
      | (key, value, rest) =>
        if key = [] then
          if TrimSpace rest = [';'] then some params else none
        else if key.contains '*' then none
        else
          match params.lookup key with
          | some old =>
            if old ≠ value then none else parseParams fuel rest params
          | none => parseParams fuel rest ((key, value) :: params)

/-- Go's `mime.ParseMediaType`: the lower-cased media type and the map of its
parameters, or nothing when the header does not parse. Parameters in the
extended notation of RFC 2231 (a `*` in the name) are outside the model, which
rejects them. -/
def ParseMediaType (v : GoString) : Option (GoString × List (GoString × GoString)) :=
  let base := v.takeWhile (fun c => c ≠ ';')
  let mediatype := TrimSpace (ToLower base)
  if ¬ checkMediaTypeDisposition mediatype then none
  else
    match parseParams (v.length + 1) (v.drop base.length) [] with
    | some params => some (mediatype, params)
    | none => none

/-! ## JSON bodies (package encoding/json) -/

/-- A JSON value. -/
inductive JSON where
  | null
  | bool (b : Bool)
  | number (literal : GoString)
  | string (s : GoString)
  | array (items : List JSON)
  | object (members : List (GoString × JSON))

/-- The struct `contentBody`. -/
structure contentBody where
  Content : GoString
  deriving DecidableEq, Repr

/-- How the decoder matches an object key with the field `Content`: the exact
name, or else the name with the case of its letters ignored. -/
def matchesContent (key : GoString) : Bool :=
  key = ['C', 'o', 'n', 't', 'e', 'n', 't'] ||
    ToLower key = ToLower ['C', 'o', 'n', 't', 'e', 'n', 't']

/-- One member of the object decoded into a `contentBody` by a decoder with
`DisallowUnknownFields`: a string stored under a key that matches `Content` is
kept, `null` there changes nothing, any other value there is a type error, and
any other key is an unknown field. The flag says that an error was saved; the
decoder goes on after an error. -/
def decodeMember (acc : contentBody × Bool) (m : GoString × JSON) : contentBody × Bool :=
  if matchesContent m.1 then
    match m.2 with
    | JSON.string s => ({ Content := s }, acc.2)
    | JSON.null => acc
    | _ => (acc.1, true)
  else (acc.1, true)

/-- The call `decoder.Decode(&c)` for a zero `contentBody` on a body whose first
JSON value is `body` (`none` when the body does not start with a JSON value):
the struct after the call, and whether an error is returned. -/
def Decode (body : Option JSON) : contentBody × Bool :=
  match body with
  | none => ({ Content := [] }, true)
  | some JSON.null => ({ Content := [] }, false)
  | some (JSON.object members) => members.foldl decodeMember ({ Content := [] }, false)
  | some _ => ({ Content := [] }, true)

/-! ## handler.go -/

/-- An incoming request: the URL path, the `Content-Type` header, the declared
content length, the first JSON value of the body, and the two values the
middlewares keep in the request context. -/
structure Request where
  Path : GoString
  ContentType : GoString
  ContentLength : Int
  Body : Option JSON
  ctxFileName : Option GoString
  ctxContent : Option GoString

/-- What a handler writes as the response body. -/
inductive Payload where
  | empty
  | text (s : GoString)
  | responseError (Error : String)
  | done
  | contentBody (c : contentBody)
  deriving DecidableEq, Repr

/-- The outcome of serving a request: a status code and a body, or a panic
that is left to `recoveryHandler`. -/
inductive Result where
  | response (code : Nat) (body : Payload)
  | panic
  deriving DecidableEq, Repr

/-- The state a handler works on: the variable `fileDir` captured by the
closure of `filePathMiddleware`, and the file system. -/
structure Server where
  fileDir : GoString
  fs : FS
  deriving DecidableEq, Repr

/-- An `http.Handler`. -/
abbrev Handler := Request → Server → Result × Server

/-- Go's `http.StripPrefix`, for a request whose URL has no `RawPath`. -/
def StripPrefix (pre : GoString) (h : Handler) : Handler :=
  if pre = [] then h
  else fun req st =>
    if (TrimPrefix req.Path pre).length < req.Path.length then
      h { req with Path := TrimPrefix req.Path pre } st
    else (Result.response 404 (Payload.text "404 page not found".toList), st)

/-- The handler `recoveryHandler`: a panic of the handler it wraps becomes a
response 500. The text of the error is not modelled. -/
def recoveryHandler (next : Handler) : Handler :=
  fun req st =>
    match next req st with
    | (Result.panic, st1) =>
      (Result.response 500 (Payload.responseError "Internal server error"), st1)
    | r => r

/-- The value `filePathMiddleware` assigns to `fileDir` when it serves a
request: a directory that starts with `./` is joined to the working
directory. -/
def filePathMiddleware.fileDir (fileDir : GoString) (fs : FS) : GoString :=
  if HasPrefix fileDir ['.', '/'] then Join [Getwd fs, TrimPrefix fileDir ['.', '/']]
  else fileDir

/-- The file name `filePathMiddleware` computes from `fileDir` and the URL
path left by `http.StripPrefix`. -/
def filePathMiddleware.fileName (fileDir u : GoString) : GoString :=
  if ¬ HasSuffix u ['/'] ∧ u.length > 0 then Join [fileDir, ['/'], u] ++ ['.', 't', 'x', 't']
  else if ¬ HasSuffix (Join [fileDir, ['/'], u]) ['/'] then Join [fileDir, ['/'], u] ++ ['/']
  else Join [fileDir, ['/'], u]

/-- The middleware `filePathMiddleware`, once built (building it panics on an
empty `fileDir`). -/
def filePathMiddleware (pathPrefix : GoString) (next : Handler) : Handler :=
  StripPrefix pathPrefix (fun req st =>
    next
      { req with
        ctxFileName := some
          (filePathMiddleware.fileName (filePathMiddleware.fileDir st.fileDir st.fs) req.Path) }
      { st with fileDir := filePathMiddleware.fileDir st.fileDir st.fs })

/-- The middleware `jsonMiddleware`; `parse` is `mime.ParseMediaType`. -/
def jsonMiddleware (parse : GoString → Option (GoString × List (GoString × GoString)))
    (next : Handler) : Handler :=
  fun req st =>
    let pass : Bool :=
      match parse req.ContentType with
      | none => false
      | some (mediaType, params) =>
        if mediaType ≠ "application/json".toList then false
        else
          match params.lookup "charset".toList with
          | none => false
          | some charset => if charset ≠ "utf-8".toList then false else true
    if ¬ pass then
      (Result.response 415 (Payload.responseError "Bad request, invalid content-type"), st)
    else next req st

/-- The middleware `contentMiddleware`. -/
def contentMiddleware (parse : GoString → Option (GoString × List (GoString × GoString)))
    (next : Handler) : Handler :=
  jsonMiddleware parse (fun req st =>
    if req.ContentLength ≤ 0 then
      (Result.response 400 (Payload.responseError "Bad request, no content"), st)
    else if (Decode req.Body).2 ∨ (Decode req.Body).1.Content.length ≤ 0 then
      (Result.response 400 (Payload.responseError "Bad request, json parse failed"), st)
    else next { req with ctxContent := some (Decode req.Body).1.Content } st)

/-- The middleware `fileExistsMiddleware`. -/
def fileExistsMiddleware (next : Handler) : Handler :=
  fun req st =>
    match req.ctxFileName with
    | none => (Result.panic, st)
    | some fileName =>
      let ok : Bool :=
        match Stat st.fs fileName with
        | Except.ok fileInfo => !fileInfo.IsDir
        | Except.error _ => false
      if ¬ ok then (Result.response 404 (Payload.responseError "File does not exist"), st)
      else next req st

/-- The middleware `fileNotExistsMiddleware`. -/
def fileNotExistsMiddleware (next : Handler) : Handler :=
  fun req st =>
    match req.ctxFileName with
    | none => (Result.panic, st)
    | some fileName =>
      let ok : Bool :=
        match Stat st.fs fileName with
        | Except.error err => IsNotExist err
        | Except.ok _ => false
      if ¬ ok then (Result.response 403 (Payload.responseError "File does exist"), st)
      else next req st

/-- The innermost handler of `createFileHandler`. -/
def createFileHandler.terminal : Handler :=
  fun req st =>
    match req.ctxFileName, req.ctxContent with
    | some fileName, some content =>
      match MkdirAll st.fs (Dir fileName) with
      | Except.error _ => (Result.panic, st)
      | Except.ok fs1 =>
        match OpenFile fs1 fileName true false with
        | Except.error _ => (Result.panic, { st with fs := fs1 })
        | Except.ok (fs2, file) =>
          match FileWrite fs2 file content with
          | Except.error _ => (Result.panic, { st with fs := fs2 })
          | Except.ok fs3 => (Result.response 200 Payload.done, { st with fs := fs3 })
    | _, _ => (Result.panic, st)

/-- The handler `createFileHandler`. -/
def createFileHandler (parse : GoString → Option (GoString × List (GoString × GoString)))
    (pathPrefix : GoString) : Handler :=
  filePathMiddleware pathPrefix
    (fileNotExistsMiddleware (contentMiddleware parse createFileHandler.terminal))

/-- The innermost handler of `modifyFileHandler`. -/
def modifyFileHandler.terminal : Handler :=
  fun req st =>
    match req.ctxFileName, req.ctxContent with
    | some fileName, some content =>
      match OpenFile st.fs fileName false true with
      | Except.error _ => (Result.panic, st)
      | Except.ok (fs1, file) =>
        match FileWrite fs1 file content with
        | Except.error _ => (Result.panic, { st with fs := fs1 })
        | Except.ok fs2 => (Result.response 200 Payload.done, { st with fs := fs2 })
    | _, _ => (Result.panic, st)

/-- The handler `modifyFileHandler`. -/
def modifyFileHandler (parse : GoString → Option (GoString × List (GoString × GoString)))
    (pathPrefix : GoString) : Handler :=
  filePathMiddleware pathPrefix
    (fileExistsMiddleware (contentMiddleware parse modifyFileHandler.terminal))

/-- The innermost handler of `removeFileHandler`. -/
def removeFileHandler.terminal : Handler :=
  fun req st =>
    match req.ctxFileName with
    | some fileName =>
      match Remove st.fs fileName with
      | Except.error _ => (Result.panic, st)
      | Except.ok fs1 => (Result.response 200 Payload.done, { st with fs := fs1 })
    | none => (Result.panic, st)

/-- The handler `removeFileHandler`. -/
def removeFileHandler (pathPrefix : GoString) : Handler :=
  filePathMiddleware pathPrefix (fileExistsMiddleware removeFileHandler.terminal)

/-- The innermost handler of `retrieveFileHandler`. -/
def retrieveFileHandler.terminal : Handler :=
  fun req st =>
    match req.ctxFileName with
    | some fileName =>
      match ReadFile st.fs fileName with
      | Except.error _ => (Result.panic, st)
      | Except.ok b => (Result.response 200 (Payload.contentBody { Content := b }), st)
    | none => (Result.panic, st)

/-- The handler `retrieveFileHandler`. -/
def retrieveFileHandler (pathPrefix : GoString) : Handler :=
  filePathMiddleware pathPrefix (fileExistsMiddleware retrieveFileHandler.terminal)

/-! ## Inputs and notions used by the statements -/

/-- A stream of 1025 bytes: 1023 spaces, the letter `a`, one more space. -/
def staleInput : List Nat := List.replicate 1023 32 ++ [97, 32]

/-- A path lies under the directory `D`: it starts with `D` closed by a
separator. -/
def under (D p : GoString) : Bool :=
  HasPrefix p (if HasSuffix D ['/'] then D else D ++ ['/'])

/-- No element of the path is `.` or `..`. -/
def noDots (s : GoString) : Bool :=
  (elements s).all (fun e => e ≠ ['.'] ∧ e ≠ ['.', '.'])

/-- Every element kept on the stack is non-empty and free of separators. -/
def goodStack (S : List GoString) : Prop := ∀ e ∈ S, e ≠ [] ∧ '/' ∉ e

/-- A request for the URL path `path`, without header, body or context
values. -/
def getRequest (path : GoString) : Request :=
  { Path := path, ContentType := [], ContentLength := 0, Body := none,
    ctxFileName := none, ctxContent := none }

/-- A handler that answers 200 with the file name it finds in the request
context. -/
def echoFileName : Handler :=
  fun req st => (Result.response 200 (Payload.text (req.ctxFileName.getD [])), st)

/-- A file system with the directories `/srv` and `/files`, the working
directory being `/srv`. -/
def sampleFS : FS :=
  { cwd := ["srv".toList],
    nodes := [(["srv".toList], Node.dir), (["files".toList], Node.dir)] }

/-- A request with a body: URL path, `Content-Type` header, declared length and
first JSON value of the body. -/
def bodyRequest (path contentType : GoString) (contentLength : Int) (body : Option JSON) :
    Request :=
  { Path := path, ContentType := contentType, ContentLength := contentLength, Body := body,
    ctxFileName := none, ctxContent := none }

/-- A handler that answers 200 with the content it finds in the request
context. -/
def echoContent : Handler :=
  fun req st => (Result.response 200 (Payload.text (req.ctxContent.getD [])), st)

/-- Every element kept on the stack is neither empty nor `.`. -/
def keptStack (S : List GoString) : Prop := ∀ e ∈ S, e ≠ [] ∧ e ≠ ['.']

/-- The parent of every object of the file system is a directory. -/
def FS.wf (fs : FS) : Bool :=
  fs.nodes.all (fun e => e.1 = [] ∨ fs.get e.1.dropLast = some Node.dir)

/-- The parent of every object of the file system is a directory, as a
statement on `FS.get`. -/
def FS.closed (fs : FS) : Prop :=
  ∀ k e, fs.get (k ++ [e]) ≠ none → fs.get k = some Node.dir

/-- The server used in the examples: root `/files` on `sampleFS`. -/
def sampleServer : Server := ⟨"/files".toList, sampleFS⟩

/-- The request `POST /test` of the tests, with the body
`{"Content": "Hello world, A test\ntext with new line\n3456"}`. -/
def sampleCreate : Request :=
  bodyRequest "/test".toList "application/json; charset=utf-8".toList 59
    (some (JSON.object
      [("Content".toList, JSON.string "Hello world, A test\ntext with new line\n3456".toList)]))

/-- A file system with the directories `/srv` and `/files` and the regular file
`/files/a.txt`, the working directory being `/srv`. -/
def sampleFSFile : FS :=
  { cwd := ["srv".toList],
    nodes := [(["srv".toList], Node.dir), (["files".toList], Node.dir),
      (["files".toList, "a.txt".toList], Node.file "x".toList)] }

/-- A request `POST /a.txt/b` with the body `{"Content": "hi"}`. -/
def sampleCreateBelowFile : Request :=
  bodyRequest "/a.txt/b".toList "application/json; charset=utf-8".toList 16
    (some (JSON.object [("Content".toList, JSON.string "hi".toList)]))

/-- A request `POST /dir/`, for a path with a trailing separator, with the body
`{"Content": "hi"}`. -/
def sampleCreateDir : Request :=
  bodyRequest "/dir/".toList "application/json; charset=utf-8".toList 16
    (some (JSON.object [("Content".toList, JSON.string "hi".toList)]))

/-- A bound on the number of `Read` calls still to come before `io.EOF`. -/
def wordReader.measure (r : wordReader) : Nat :=
  r.reader.length * (r.rbuf.length + 1) + (r.rbuf.length - r.pos) +
    (if r.wbuf = [] then 0 else 1)

/-- The words `WordReader` yields for a file: the results of successive `Read`
calls on a new reader over it, up to the first `io.EOF`. -/
def wordsOf (f : Reader) : List (List Nat) :=
  (readWords (readFuel (NewWordReader f)) (NewWordReader f)).1

/-- The words of a directory entry (none when it cannot be opened). -/
def DirEntry.words (e : DirEntry) : List (List Nat) :=
  match e.file with
  | some f => wordsOf f
  | none => []

/-- The entries of a listing that are not directories. -/
def regularFiles (entries : List DirEntry) : List DirEntry :=
  entries.filter (fun e => !e.IsDir)

/-- The listing of the test directory: the sub-directories `a` and `b`, the
file `a.txt` holding `hi hi` and the file `b.txt` holding `world`. -/
def sampleDir : List DirEntry :=
  [⟨true, 4096, none⟩, ⟨false, 5, some (bytesReader 1024 (bytes "hi hi"))⟩,
    ⟨true, 4096, none⟩, ⟨false, 5, some (bytesReader 1024 (bytes "world"))⟩]

/-- The reader after `n` further `Read` calls. -/
def afterReads : Nat → wordReader → wordReader
  | 0, r => r
  | n + 1, r => afterReads n r.Read.2

/-- Every byte of the list is an ASCII letter. -/
def lettersOnly (w : List Nat) : Bool := w.all isLetter

/-- The end of the stream is reached: the underlying reader is used up, the
buffer is read to its end and no word is pending. -/
def wordReader.atEOF (r : wordReader) : Prop :=
  r.reader = [] ∧ r.rbuf.length ≤ r.pos ∧ r.wbuf = []

/-- Go's `os.Chdir` to the directory with the given elements. -/
def Chdir (fs : FS) (dir : List GoString) : FS := { fs with cwd := dir }

/-- The life of one handler: for each item of the sequence the process first
changes its working directory to the directory given (possibly the one it is
in), then the handler serves the request, starting from the state its last
request left. The list holds the outcomes. -/
def serveFrom (h : Handler) : Server → List (List GoString × Request) → List Result
  | _, [] => []
  | st, (wd, req) :: rest =>
    (h req { st with fs := Chdir st.fs wd }).1 ::
      serveFrom h (h req { st with fs := Chdir st.fs wd }).2 rest

/-! ## Properties of the tokenizer -/

/-- C1 (failing input): on the 1025-byte stream `staleInput`, whose only
maximal run of letters is `a`, successive `Read` calls return the word `a`
twice before `io.EOF`: the second `reader.Read` delivers one byte, and the
1023 bytes left in the buffer from the first one are scanned again. -/
theorem wordReader_rereads_stale_buffer :
    readWords (readFuel (NewWordReader (bytesReader 1024 staleInput)))
        (NewWordReader (bytesReader 1024 staleInput)) = ([[97], [97]], true) ∧
      maximalRuns staleInput = [[97]] := by
  decide!

/-! ## Properties of the path resolver -/

theorem elements_ne_nil (p : GoString) : elements p ≠ [] := by
  cases p with
  | nil => simp [elements]
  | cons c cs =>
    simp only [elements]
    split
    · simp
    · split <;> simp

theorem elements_append_sep (a b : GoString) :
    elements (a ++ '/' :: b) = elements a ++ elements b := by
  induction a with
  | nil => simp [elements]
  | cons c a ih =>
    simp only [List.cons_append, elements, List.append_eq, ih]
    split
    · simp
    · cases h : elements a with
      | nil => exact absurd h (elements_ne_nil a)
      | cons e es => simp

theorem mem_elements_no_sep (p : GoString) : ∀ e ∈ elements p, '/' ∉ e := by
  induction p with
  | nil => simp [elements]
  | cons c cs ih =>
    simp only [elements]
    split
    · intro e he
      simp only [List.mem_cons] at he
      rcases he with rfl | he
      · simp
      · exact ih e he
    · rename_i hc
      cases h : elements cs with
      | nil => exact absurd h (elements_ne_nil cs)
      | cons e es =>
        rw [h] at ih
        intro x hx
        simp only [List.mem_cons] at hx
        rcases hx with rfl | hx
        · have := ih e (by simp)
          simp only [List.mem_cons, not_or]
          exact ⟨fun h' => hc h'.symm, this⟩
        · exact ih x (by simp [hx])

theorem elements_of_name (x : GoString) (hx : '/' ∉ x) : elements x = [x] := by
  induction x with
  | nil => simp [elements]
  | cons c cs ih =>
    simp only [List.mem_cons, not_or] at hx
    simp only [elements, ih hx.2]
    split
    · rename_i h; exact absurd h.symm hx.1
    · rfl

theorem intercalate_cons_cons (sep a b : GoString) (rest : List GoString) :
    sep.intercalate (a :: b :: rest) = a ++ sep ++ sep.intercalate (b :: rest) := by
  simp [List.intercalate, List.intersperse]

theorem intercalate_append (sep : GoString) (A B : List GoString) (hA : A ≠ []) (hB : B ≠ []) :
    sep.intercalate (A ++ B) = sep.intercalate A ++ sep ++ sep.intercalate B := by
  induction A with
  | nil => exact absurd rfl hA
  | cons a A ih =>
    cases A with
    | nil =>
      cases B with
      | nil => exact absurd rfl hB
      | cons b B =>
        rw [List.singleton_append, intercalate_cons_cons]
        simp [List.intercalate, List.intersperse]
    | cons a2 A =>
      rw [List.cons_append, List.cons_append, intercalate_cons_cons, ← List.cons_append,
        ih (by simp), intercalate_cons_cons]
      simp [List.append_assoc]

theorem cleanStep_nil (r : Bool) (S : List GoString) : cleanStep r S [] = S := by
  simp [cleanStep]

theorem foldl_cleanStep_names (r : Bool) (es : List GoString) (S : List GoString)
    (h : ∀ e ∈ es, e ≠ ['.'] ∧ e ≠ ['.', '.']) :
    es.foldl (cleanStep r) S = (es.filter (fun e => e ≠ [])).reverse ++ S := by
  induction es generalizing S with
  | nil => simp
  | cons e es ih =>
    have he := h e (by simp)
    rw [List.foldl_cons, ih _ (fun x hx => h x (by simp [hx]))]
    by_cases h0 : e = []
    · subst h0
      simp [cleanStep]
    · simp [cleanStep, h0, he.1, he.2, List.filter_cons]

theorem isRooted_append (D s : GoString) (hD : D ≠ []) : isRooted (D ++ s) = isRooted D := by
  cases D with
  | nil => exact absurd rfl hD
  | cons c cs => simp [isRooted]

theorem Clean_of_ne_nil (D : GoString) (hD : D ≠ []) :
    Clean D = render (isRooted D) ((elements D).foldl (cleanStep (isRooted D)) []) := by
  simp [Clean, hD]

theorem Join_three (D s : GoString) (hD : D ≠ []) :
    Join [D, ['/'], s] =
      render (isRooted D)
        ((elements s).foldl (cleanStep (isRooted D))
          ((elements D).foldl (cleanStep (isRooted D)) [])) := by
  have h1 : stringsJoin [D, ['/'], s] ['/'] = D ++ '/' :: ('/' :: '/' :: s) := by
    simp [stringsJoin, List.intercalate, List.intersperse]
  have h2 : Join [D, ['/'], s] = Clean (stringsJoin [D, ['/'], s] ['/']) := by
    simp [Join, List.dropWhile, hD]
  rw [h2, h1, Clean_of_ne_nil _ (by simp [hD]), isRooted_append _ _ hD, elements_append_sep]
  simp [elements, List.foldl_append, cleanStep_nil]

theorem Join_two (D x : GoString) (hD : D ≠ []) :
    Join [D, x] =
      render (isRooted D)
        ((elements x).foldl (cleanStep (isRooted D))
          ((elements D).foldl (cleanStep (isRooted D)) [])) := by
  have h1 : stringsJoin [D, x] ['/'] = D ++ '/' :: x := by
    simp [stringsJoin, List.intercalate, List.intersperse]
  have h2 : Join [D, x] = Clean (stringsJoin [D, x] ['/']) := by
    simp [Join, List.dropWhile, hD]
  rw [h2, h1, Clean_of_ne_nil _ (by simp [hD]), isRooted_append _ _ hD, elements_append_sep]
  simp [List.foldl_append]

theorem render_append (r : Bool) (T S : List GoString) (hT : T ≠ []) (hS : S ≠ []) :
    render r (T ++ S) = render r S ++ '/' :: ['/'].intercalate T.reverse := by
  have h : ['/'].intercalate (S.reverse ++ T.reverse) =
      ['/'].intercalate S.reverse ++ '/' :: ['/'].intercalate T.reverse := by
    rw [intercalate_append _ _ _ (by simpa using hS) (by simpa using hT)]
    simp
  cases r <;> simp [render, hT, hS, h]

theorem render_rooted_nil (T : List GoString) :
    render true T = '/' :: ['/'].intercalate T.reverse := by
  simp [render]

theorem names_ne_nil (s : GoString) (h0 : s ≠ []) (h1 : HasSuffix s ['/'] = false) :
    (elements s).filter (fun e => e ≠ []) ≠ [] := by
  induction s with
  | nil => exact absurd rfl h0
  | cons c cs ih =>
    simp only [elements]
    split
    · rename_i hc
      subst hc
      have hcs : cs ≠ [] := by
        rintro rfl
        exact absurd h1 (by decide)
      have h2 : HasSuffix cs ['/'] = false := by
        cases h : HasSuffix cs ['/'] with
        | false => rfl
        | true =>
          exfalso
          have h3 : ['/'] <:+ cs := by simpa [HasSuffix] using h
          have h4 : HasSuffix ('/' :: cs) ['/'] = true := by
            simp only [HasSuffix, List.isSuffixOf_iff_suffix]
            exact List.suffix_cons_iff.mpr (Or.inr h3)
          rw [h4] at h1
          exact Bool.noConfusion h1
      simpa [List.filter_cons] using ih hcs h2
    · cases h : elements cs with
      | nil => simp [List.filter_cons]
      | cons e es => simp [List.filter_cons]

theorem filePathMiddleware_apply (P s : GoString) (next : Handler) (req : Request) (st : Server)
    (hreq : req.Path = P ++ s) :
    filePathMiddleware P next req st =
      next
        { req with
          Path := s
          ctxFileName := some
            (filePathMiddleware.fileName (filePathMiddleware.fileDir st.fileDir st.fs) s) }
        { st with fileDir := filePathMiddleware.fileDir st.fileDir st.fs } := by
  cases req with
  | mk Path ContentType ContentLength Body ctxFileName ctxContent =>
    simp only at hreq
    subst hreq
    by_cases hP : P = []
    · subst hP
      simp [filePathMiddleware, StripPrefix]
    · have h1 : TrimPrefix (P ++ s) P = s := by
        simp [TrimPrefix, HasPrefix]
      have h2 : s.length < (P ++ s).length := by
        have : 0 < P.length := List.length_pos.mpr hP
        simp only [List.length_append]
        omega
      simp [filePathMiddleware, StripPrefix, hP, h1]

theorem fileDir_ne_nil (fileDir : GoString) (fs : FS) (h : fileDir ≠ []) :
    filePathMiddleware.fileDir fileDir fs ≠ [] := by
  unfold filePathMiddleware.fileDir
  split
  · rw [Join_two _ _ (by simp [Getwd])]
    simp [Getwd, isRooted, render]
  · exact h

theorem goodStack_cleanStep (r : Bool) (S : List GoString) (e : GoString)
    (hS : goodStack S) (he : '/' ∉ e) : goodStack (cleanStep r S e) := by
  unfold cleanStep
  split
  · exact hS
  · rename_i h0
    have hne : e ≠ [] := fun h => h0 (Or.inl h)
    split
    · cases S with
      | nil =>
        cases r
        · intro x hx
          simp only [Bool.false_eq_true, ↓reduceIte, List.mem_singleton] at hx
          subst hx
          exact ⟨hne, he⟩
        · simpa using hS
      | cons top below =>
        simp only
        split
        · intro x hx
          simp only [List.mem_cons] at hx
          rcases hx with rfl | hx
          · exact ⟨hne, he⟩
          · exact hS x (by simpa using hx)
        · intro x hx
          exact hS x (by simp [hx])
    · intro x hx
      simp only [List.mem_cons] at hx
      rcases hx with rfl | hx
      · exact ⟨hne, he⟩
      · exact hS x hx

theorem goodStack_foldl (r : Bool) (es : List GoString) (S : List GoString)
    (hS : goodStack S) (hes : ∀ e ∈ es, '/' ∉ e) : goodStack (es.foldl (cleanStep r) S) := by
  induction es generalizing S with
  | nil => simpa using hS
  | cons e es ih =>
    rw [List.foldl_cons]
    exact ih _ (goodStack_cleanStep r S e hS (hes e (by simp)))
      (fun x hx => hes x (by simp [hx]))

theorem goodStack_elements (r : Bool) (D s : GoString) :
    goodStack ((elements s).foldl (cleanStep r) ((elements D).foldl (cleanStep r) [])) :=
  goodStack_foldl r _ _
    (goodStack_foldl r _ _ (by intro e he; simp at he) (mem_elements_no_sep D))
    (mem_elements_no_sep s)

theorem intercalate_getLast (sep : GoString) (A : List GoString) (hA : A ≠ []) :
    ∃ pre, sep.intercalate A = pre ++ A.getLast hA := by
  induction A with
  | nil => exact absurd rfl hA
  | cons a A ih =>
    cases A with
    | nil => exact ⟨[], by simp [List.intercalate, List.intersperse]⟩
    | cons b A =>
      obtain ⟨pre, hpre⟩ := ih (by simp)
      refine ⟨a ++ sep ++ pre, ?_⟩
      rw [intercalate_cons_cons, hpre]
      simp [List.append_assoc]

theorem not_suffix_sep (pre e : GoString) (hne : e ≠ []) (hsep : '/' ∉ e) :
    HasSuffix (pre ++ e) ['/'] = false := by
  cases h : HasSuffix (pre ++ e) ['/'] with
  | false => rfl
  | true =>
    exfalso
    have h1 : ['/'] <:+ pre ++ e := by simpa [HasSuffix] using h
    obtain ⟨t, ht⟩ := h1
    have h2 : (pre ++ e).getLast? = some '/' := by
      rw [← ht]; simp
    rw [List.getLast?_append_of_ne_nil _ hne] at h2
    have h3 := List.mem_of_getLast?_eq_some h2
    exact hsep h3

theorem render_hasSuffix (r : Bool) (S : List GoString) (hS : goodStack S) :
    HasSuffix (render r S) ['/'] = (r && decide (S = [])) := by
  cases S with
  | nil => cases r <;> decide
  | cons top below =>
    have hne : (top :: below).reverse ≠ [] := by simp
    obtain ⟨pre, hpre⟩ := intercalate_getLast ['/'] (top :: below).reverse hne
    have hlast : (top :: below).reverse.getLast hne = top := by simp
    rw [hlast] at hpre
    have htop := hS top (by simp)
    cases r
    · simp only [render, Bool.false_eq_true, ↓reduceIte, hpre, Bool.false_and]
      simpa using not_suffix_sep pre top htop.1 htop.2
    · simp only [render, ↓reduceIte, hpre, Bool.true_and]
      have := not_suffix_sep ('/' :: pre) top htop.1 htop.2
      simpa using this

theorem prefix_fileName (D s : GoString) :
    Join [D, ['/'], s] <+: filePathMiddleware.fileName D s := by
  unfold filePathMiddleware.fileName
  split
  · exact List.prefix_append _ _
  · split
    · exact List.prefix_append _ _
    · exact List.prefix_refl _

theorem fileName_under (D s : GoString) (hD : D ≠ []) (hs : noDots s = true)
    (hC : Clean D ≠ ['.']) :
    under (Clean D) (filePathMiddleware.fileName D s) = true := by
  have hs' : ∀ e ∈ elements s, e ≠ ['.'] ∧ e ≠ ['.', '.'] := by
    simpa [noDots] using hs
  have hJ := Join_three D s hD
  rw [foldl_cleanStep_names _ _ _ hs'] at hJ
  have hC' := Clean_of_ne_nil D hD
  simp only [under, HasPrefix, List.isPrefixOf_iff_prefix]
  by_cases hT : (elements s).filter (fun e => e ≠ []) = []
  · rw [hT] at hJ
    simp only [List.reverse_nil, List.nil_append] at hJ
    have hdir : ¬ (¬ HasSuffix s ['/'] = true ∧ s.length > 0) := by
      rintro ⟨h1, h2⟩
      exact names_ne_nil s (List.length_pos.mp h2) (by simpa using h1) hT
    unfold filePathMiddleware.fileName
    rw [if_neg hdir, hJ, ← hC']
    cases h : HasSuffix (Clean D) ['/'] <;> simp
  · have hT' : ((elements s).filter (fun e => e ≠ [])).reverse ≠ [] := by simpa using hT
    by_cases hS : (elements D).foldl (cleanStep (isRooted D)) [] = []
    · rw [hS] at hJ hC'
      cases hr : isRooted D with
      | false =>
        rw [hr] at hC'
        exact absurd hC' hC
      | true =>
        rw [hr] at hJ hC'
        rw [hC']
        have h1 : HasSuffix (render true []) ['/'] = true := by decide
        rw [if_pos h1]
        refine List.IsPrefix.trans ?_ (prefix_fileName D s)
        rw [hJ, render_rooted_nil, render_rooted_nil]
        exact ⟨_, rfl⟩
    · rw [render_append _ _ _ hT' hS, ← hC'] at hJ
      refine List.IsPrefix.trans ?_ (prefix_fileName D s)
      rw [hJ]
      split
      · exact List.prefix_append _ _
      · exact ⟨['/'].intercalate ((elements s).filter (fun e => e ≠ [])).reverse.reverse,
          by simp⟩

/-- C2 (amended): for a request path `P ++ s` whose suffix `s` has no `.` and
no `..` element, the file name that `filePathMiddleware` stores in the request
context lies under the cleaned directory it resolves against (`fileDir`, made
absolute when it starts with `./`), provided that directory is not the bare
`.`. -/
theorem filePathMiddleware_under_root (P s : GoString) (next : Handler) (req : Request)
    (st : Server) (hreq : req.Path = P ++ s) (hdir : st.fileDir ≠ [])
    (hs : noDots s = true)
    (hC : Clean (filePathMiddleware.fileDir st.fileDir st.fs) ≠ ['.']) :
    filePathMiddleware P next req st =
        next
          { req with
            Path := s
            ctxFileName := some
              (filePathMiddleware.fileName (filePathMiddleware.fileDir st.fileDir st.fs) s) }
          { st with fileDir := filePathMiddleware.fileDir st.fileDir st.fs } ∧
      under (Clean (filePathMiddleware.fileDir st.fileDir st.fs))
        (filePathMiddleware.fileName (filePathMiddleware.fileDir st.fileDir st.fs) s) = true :=
  ⟨filePathMiddleware_apply P s next req st hreq,
    fileName_under _ s (fileDir_ne_nil _ _ hdir) hs hC⟩

theorem Join_three_eq_two (D s : GoString) (hD : D ≠ []) :
    Join [D, ['/'], s] = Join [D, s] := by
  rw [Join_three D s hD, Join_two D s hD]

theorem Join_hasSuffix (D s : GoString) (hD : D ≠ []) :
    HasSuffix (Join [D, s]) ['/'] = true ↔ Join [D, s] = ['/'] := by
  constructor
  · intro h
    rw [Join_two D s hD] at h ⊢
    rw [render_hasSuffix _ _ (goodStack_elements _ D s)] at h
    simp only [Bool.and_eq_true, decide_eq_true_eq] at h
    obtain ⟨h1, h2⟩ := h
    rw [h2, h1]
    rfl
  · intro h
    rw [h]
    rfl

theorem Clean_hasSuffix (D : GoString) (hD : D ≠ []) :
    HasSuffix (Clean D) ['/'] = true ↔ Clean D = ['/'] := by
  constructor
  · intro h
    rw [Clean_of_ne_nil D hD] at h ⊢
    rw [render_hasSuffix _ _
      (goodStack_foldl _ _ _ (by intro e he; simp at he) (mem_elements_no_sep D))] at h
    simp only [Bool.and_eq_true, decide_eq_true_eq] at h
    obtain ⟨h1, h2⟩ := h
    rw [h2, h1]
    rfl
  · intro h
    rw [h]
    rfl

theorem Join_nil_right (D : GoString) (hD : D ≠ []) : Join [D, []] = Clean D := by
  rw [Join_two D [] hD, Clean_of_ne_nil D hD]
  simp [elements, cleanStep_nil]

theorem Join_sep_cons (D x : GoString) (hD : D ≠ []) : Join [D, '/' :: x] = Join [D, x] := by
  rw [Join_two D _ hD, Join_two D x hD]
  simp [elements, cleanStep_nil]

theorem not_double_sep (J : GoString) (h : HasSuffix J ['/'] = false) :
    HasSuffix (J ++ ['/']) ['/', '/'] = false := by
  cases h2 : HasSuffix (J ++ ['/']) ['/', '/'] with
  | false => rfl
  | true =>
    exfalso
    have h3 : ['/', '/'] <:+ J ++ ['/'] := by simpa [HasSuffix] using h2
    have h4 : ['/'] <:+ J := by
      have h5 := List.reverse_prefix.mpr h3
      simp only [List.reverse_cons, List.reverse_nil, List.nil_append, List.singleton_append,
        List.reverse_append, List.cons_prefix_cons, true_and] at h5
      have h6 : ['/'].reverse <+: J.reverse := by simpa using h5
      exact List.reverse_prefix.mp h6
    have h7 : HasSuffix J ['/'] = true := by simpa [HasSuffix] using h4
    rw [h7] at h
    exact Bool.noConfusion h

theorem fileName_dir (D s : GoString) (hD : D ≠ []) (hs : s = [] ∨ HasSuffix s ['/'] = true) :
    filePathMiddleware.fileName D s =
        (if Join [D, s] = ['/'] then ['/'] else Join [D, s] ++ ['/']) ∧
      HasSuffix (filePathMiddleware.fileName D s) ['/', '/'] = false := by
  have hcond : ¬ (¬ HasSuffix s ['/'] = true ∧ s.length > 0) := by
    rintro ⟨h1, h2⟩
    rcases hs with rfl | h
    · simp at h2
    · exact h1 h
  have hname : filePathMiddleware.fileName D s =
      (if Join [D, s] = ['/'] then ['/'] else Join [D, s] ++ ['/']) := by
    unfold filePathMiddleware.fileName
    rw [if_neg hcond, Join_three_eq_two D s hD]
    by_cases h : Join [D, s] = ['/']
    · rw [if_pos h, if_neg (by rw [h]; decide), h]
    · rw [if_neg h, if_pos]
      intro h2
      exact h ((Join_hasSuffix D s hD).mp h2)
  refine ⟨hname, ?_⟩
  rw [hname]
  by_cases h : Join [D, s] = ['/']
  · rw [if_pos h]; decide
  · rw [if_neg h]
    apply not_double_sep
    cases h2 : HasSuffix (Join [D, s]) ['/'] with
    | false => rfl
    | true => exact absurd ((Join_hasSuffix D s hD).mp h2) h

theorem fileName_file (D s : GoString) (hD : D ≠ []) (h0 : s ≠ [])
    (h1 : HasSuffix s ['/'] = false) :
    filePathMiddleware.fileName D s = Join [D, s] ++ ['.', 't', 'x', 't'] := by
  unfold filePathMiddleware.fileName
  rw [if_pos ⟨by simp [h1], List.length_pos.mpr h0⟩, Join_three_eq_two D s hD]

theorem Join_name (D x : GoString) (hD : D ≠ []) (hx0 : x ≠ []) (hx1 : '/' ∉ x)
    (hx2 : x ≠ ['.']) (hx3 : x ≠ ['.', '.']) (hC : Clean D ≠ ['.']) :
    Join [D, x] = (if Clean D = ['/'] then ['/'] else Clean D ++ ['/']) ++ x := by
  have hJ := Join_two D x hD
  rw [elements_of_name x hx1] at hJ
  simp only [List.foldl_cons, List.foldl_nil] at hJ
  have hstep : ∀ S, cleanStep (isRooted D) S x = x :: S := by
    intro S
    simp [cleanStep, hx0, hx2, hx3]
  rw [hstep] at hJ
  have hC' := Clean_of_ne_nil D hD
  have hgood : goodStack ((elements D).foldl (cleanStep (isRooted D)) []) :=
    goodStack_foldl _ _ _ (by intro e he; simp at he) (mem_elements_no_sep D)
  by_cases hS : (elements D).foldl (cleanStep (isRooted D)) [] = []
  · rw [hS] at hJ hC'
    cases hr : isRooted D with
    | false => rw [hr] at hC'; exact absurd hC' hC
    | true =>
      rw [hr] at hJ hC'
      have h1 : Clean D = ['/'] := by rw [hC']; rfl
      rw [if_pos h1, hJ]
      simp [render, List.intercalate, List.intersperse]
  · have h1 : Clean D ≠ ['/'] := by
      intro h
      have h2 := (Clean_hasSuffix D hD).mpr h
      rw [hC', render_hasSuffix _ _ hgood] at h2
      simp [hS] at h2
    rw [if_neg h1, hJ]
    have h3 := render_append (isRooted D) [x] _ (by simp) hS
    simp only [List.singleton_append] at h3
    rw [h3, ← hC']
    simp [List.intercalate, List.intersperse]

/-- C2 (counterexample): with the root `/files` and the prefix `/api`, the
request path `/api/../etc/passwd` is resolved to `/etc/passwd.txt`, which does
not lie under `/files`. -/
theorem filePathMiddleware_escapes_root :
    filePathMiddleware "/api".toList echoFileName (getRequest "/api/../etc/passwd".toList)
        ⟨"/files".toList, sampleFS⟩ =
        (Result.response 200 (Payload.text "/etc/passwd.txt".toList),
          ⟨"/files".toList, sampleFS⟩) ∧
      under "/files".toList "/etc/passwd.txt".toList = false := by
  decide

/-- C2 (witness): the request path `/api/docs/io` under the root `/files`. -/
theorem filePathMiddleware_under_root_witness :
    under (Clean "/files".toList)
      (filePathMiddleware.fileName
        (filePathMiddleware.fileDir "/files".toList sampleFS) "/docs/io".toList) = true :=
  (filePathMiddleware_under_root "/api".toList "/docs/io".toList echoFileName
    (getRequest "/api/docs/io".toList) ⟨"/files".toList, sampleFS⟩ (by rfl) (by decide)
    (by decide) (by decide)).2

/-- C3 (counterexample): with the root `./files`, the prefix `/api/v2` and the
working directory `/srv`, the request path `/api/v2/io` is resolved to
`/srv/files/io.txt`; the cleaned join of the root `./files` and the suffix
`/io` followed by `.txt` is `files/io.txt`, and the root, a separator, `io` and
`.txt` is `./files/io.txt`. -/
theorem filePathMiddleware_relative_root :
    filePathMiddleware "/api/v2".toList echoFileName (getRequest "/api/v2/io".toList)
        ⟨"./files".toList, sampleFS⟩ =
        (Result.response 200 (Payload.text "/srv/files/io.txt".toList),
          ⟨"/srv/files".toList, sampleFS⟩) ∧
      Join ["./files".toList, "/io".toList] ++ ".txt".toList = "files/io.txt".toList ∧
      "/srv/files/io.txt".toList ≠ "files/io.txt".toList ∧
      "/srv/files/io.txt".toList ≠ "./files/io.txt".toList := by
  decide

/-- C3 (amended): for a request path `P ++ s`, `filePathMiddleware` hands on the
request with the path `s` and, in its context, the file name made from the
cleaned join `Join [D, s]` of the directory `D` it resolves against and `s`:
when `s` is empty or ends with a separator the join followed by one separator
(the root `/` as it is), never by two; otherwise the join followed by `.txt`.
In particular the empty suffix gives the cleaned `D` closed by a separator, and
the suffix `/x`, for a name `x`, gives the cleaned `D`, a separator, `x` and
`.txt`. The directory `D` is the root `fileDir` itself when that does not start
with `./`, and for a root `./d` it is the cleaned join of the working directory
and `d`, which the handler keeps as its root from then on. -/
theorem filePathMiddleware_resolves (P s : GoString) (next : Handler) (req : Request)
    (st : Server) (hreq : req.Path = P ++ s) (hdir : st.fileDir ≠ []) :
    filePathMiddleware P next req st =
        next
          { req with
            Path := s
            ctxFileName := some
              (filePathMiddleware.fileName (filePathMiddleware.fileDir st.fileDir st.fs) s) }
          { st with fileDir := filePathMiddleware.fileDir st.fileDir st.fs } ∧
      (s = [] ∨ HasSuffix s ['/'] = true →
        filePathMiddleware.fileName (filePathMiddleware.fileDir st.fileDir st.fs) s =
            (if Join [filePathMiddleware.fileDir st.fileDir st.fs, s] = ['/'] then ['/']
              else Join [filePathMiddleware.fileDir st.fileDir st.fs, s] ++ ['/']) ∧
          HasSuffix (filePathMiddleware.fileName (filePathMiddleware.fileDir st.fileDir st.fs) s)
            ['/', '/'] = false) ∧
      (s ≠ [] → HasSuffix s ['/'] = false →
        filePathMiddleware.fileName (filePathMiddleware.fileDir st.fileDir st.fs) s =
          Join [filePathMiddleware.fileDir st.fileDir st.fs, s] ++ ['.', 't', 'x', 't']) ∧
      (s = [] →
        filePathMiddleware.fileName (filePathMiddleware.fileDir st.fileDir st.fs) s =
          (if Clean (filePathMiddleware.fileDir st.fileDir st.fs) = ['/'] then ['/']
            else Clean (filePathMiddleware.fileDir st.fileDir st.fs) ++ ['/'])) ∧
      (∀ x : GoString, s = '/' :: x → x ≠ [] → '/' ∉ x → x ≠ ['.'] → x ≠ ['.', '.'] →
        Clean (filePathMiddleware.fileDir st.fileDir st.fs) ≠ ['.'] →
        filePathMiddleware.fileName (filePathMiddleware.fileDir st.fileDir st.fs) s =
          (if Clean (filePathMiddleware.fileDir st.fileDir st.fs) = ['/'] then ['/']
            else Clean (filePathMiddleware.fileDir st.fileDir st.fs) ++ ['/']) ++ x ++
            ['.', 't', 'x', 't']) ∧
      (HasPrefix st.fileDir ['.', '/'] = false →
        filePathMiddleware.fileDir st.fileDir st.fs = st.fileDir) ∧
      (∀ d : GoString, st.fileDir = '.' :: '/' :: d →
        filePathMiddleware.fileDir st.fileDir st.fs = Join [Getwd st.fs, d]) := by
  have hD := fileDir_ne_nil st.fileDir st.fs hdir
  refine ⟨filePathMiddleware_apply P s next req st hreq, fileName_dir _ s hD,
    fileName_file _ s hD, ?_, ?_, ?_, ?_⟩
  · intro hs
    have h := (fileName_dir _ s hD (Or.inl hs)).1
    rw [hs] at h ⊢
    rw [h, Join_nil_right _ hD]
  · intro x hs hx0 hx1 hx2 hx3 hC
    have hsfx : HasSuffix ('/' :: x) ['/'] = false := not_suffix_sep ['/'] x hx0 hx1
    rw [hs, fileName_file _ _ hD (by simp) hsfx, Join_sep_cons _ x hD,
      Join_name _ x hD hx0 hx1 hx2 hx3 hC]
  · intro h
    simp [filePathMiddleware.fileDir, h]
  · intro d h
    rw [h]
    simp [filePathMiddleware.fileDir, HasPrefix, TrimPrefix]

/-- C3 (witness): the request path `/api/docs/` under the root `./files` and
the prefix `/api`, the working directory being `/srv`. -/
theorem filePathMiddleware_resolves_witness :
    filePathMiddleware "/api".toList echoFileName (getRequest "/api/docs/".toList)
        ⟨"./files".toList, sampleFS⟩ =
      (Result.response 200 (Payload.text "/srv/files/docs/".toList),
        ⟨"/srv/files".toList, sampleFS⟩) :=
  (filePathMiddleware_resolves "/api".toList "/docs/".toList echoFileName
    (getRequest "/api/docs/".toList) ⟨"./files".toList, sampleFS⟩ (by rfl) (by decide)).1.trans
    (by decide)

/-! ## Properties of the content decoder -/

theorem jsonMiddleware_pass (parse : GoString → Option (GoString × List (GoString × GoString)))
    (next : Handler) (req : Request) (st : Server) (mediaType : GoString)
    (params : List (GoString × GoString))
    (hparse : parse req.ContentType = some (mediaType, params))
    (hmt : mediaType = "application/json".toList)
    (hcs : params.lookup "charset".toList = some "utf-8".toList) :
    jsonMiddleware parse next req st = next req st := by
  simp only [String.toList] at hmt hcs
  simp [jsonMiddleware, hparse, hmt, hcs]

theorem ParseMediaType_lower (v mediaType : GoString) (params : List (GoString × GoString))
    (h : ParseMediaType v = some (mediaType, params)) :
    mediaType = TrimSpace (ToLower (v.takeWhile (fun c => c ≠ ';'))) := by
  unfold ParseMediaType at h
  simp only at h
  split at h
  · exact Option.noConfusion h
  · split at h
    · simp only [Option.some.injEq, Prod.mk.injEq] at h
      exact h.1.symm
    · exact Option.noConfusion h

/-- C6 (counterexample): the header `Application/JSON; charset=UTF-8` parses to
the media type `application/json` with the charset `UTF-8`, which is `utf-8` up
to case, and `jsonMiddleware` answers 415 without calling the next stage. -/
theorem jsonMiddleware_upper_case_charset_rejected :
    ParseMediaType "Application/JSON; charset=UTF-8".toList =
        some ("application/json".toList, [("charset".toList, "UTF-8".toList)]) ∧
      ToLower "UTF-8".toList = "utf-8".toList ∧
      jsonMiddleware ParseMediaType echoContent
          (bodyRequest "/".toList "Application/JSON; charset=UTF-8".toList 0 none)
          ⟨"/files".toList, sampleFS⟩ =
        (Result.response 415 (Payload.responseError "Bad request, invalid content-type"),
          ⟨"/files".toList, sampleFS⟩) := by
  decide

/-- C6 (amended): `jsonMiddleware` passes to the next stage every request whose
`Content-Type` header parses to the media type `application/json` with a
`charset` parameter equal to `utf-8`, letter for letter, whatever the other
parameters. The media type is the one `mime.ParseMediaType` returns, which is
the part of the header before the first `;`, lower-cased and trimmed, so that
its case does not matter; the charset value is compared as it is written. -/
theorem jsonMiddleware_accepts (parse : GoString → Option (GoString × List (GoString × GoString)))
    (next : Handler) (req : Request) (st : Server) (mediaType : GoString)
    (params : List (GoString × GoString))
    (hparse : parse req.ContentType = some (mediaType, params))
    (hmt : mediaType = "application/json".toList)
    (hcs : params.lookup "charset".toList = some "utf-8".toList) :
    jsonMiddleware parse next req st = next req st ∧
      (∀ v m ps, ParseMediaType v = some (m, ps) →
        m = TrimSpace (ToLower (v.takeWhile (fun c => c ≠ ';')))) :=
  ⟨jsonMiddleware_pass parse next req st mediaType params hparse hmt hcs,
    ParseMediaType_lower⟩

/-- C6 (witness): the header `Application/JSON;  charset = utf-8; code=123`. -/
theorem jsonMiddleware_accepts_witness :
    jsonMiddleware ParseMediaType echoContent
        (bodyRequest "/".toList "Application/JSON;  charset = utf-8; code=123".toList 0 none)
        ⟨"/files".toList, sampleFS⟩ =
      (Result.response 200 (Payload.text []), ⟨"/files".toList, sampleFS⟩) :=
  (jsonMiddleware_accepts ParseMediaType echoContent
    (bodyRequest "/".toList "Application/JSON;  charset = utf-8; code=123".toList 0 none)
    ⟨"/files".toList, sampleFS⟩ "application/json".toList
    [("code".toList, "123".toList), ("charset".toList, "utf-8".toList)]
    (by decide) (by rfl) (by decide)).1

/-- C7: when the `Content-Type` header does not parse, or parses to a media type
other than `application/json`, or has no `charset` parameter, or has one that
is not `utf-8`, `jsonMiddleware` answers 415 and leaves the state as it is,
whatever the next stage is: the next stage is not called. -/
theorem jsonMiddleware_rejects (parse : GoString → Option (GoString × List (GoString × GoString)))
    (next : Handler) (req : Request) (st : Server)
    (h : parse req.ContentType = none ∨
      ∃ mediaType params, parse req.ContentType = some (mediaType, params) ∧
        (mediaType ≠ "application/json".toList ∨
          params.lookup "charset".toList = none ∨
          ∃ charset, params.lookup "charset".toList = some charset ∧
            charset ≠ "utf-8".toList)) :
    jsonMiddleware parse next req st =
      (Result.response 415 (Payload.responseError "Bad request, invalid content-type"), st) := by
  simp only [String.toList] at h
  rcases h with h | ⟨mediaType, params, hp, h⟩
  · simp [jsonMiddleware, h]
  · by_cases hmt : mediaType = ['a', 'p', 'p', 'l', 'i', 'c', 'a', 't', 'i', 'o', 'n', '/',
        'j', 's', 'o', 'n']
    · rcases h with h | h | ⟨charset, h1, h2⟩
      · exact absurd hmt h
      · simp [jsonMiddleware, hp, hmt, h]
      · simp [jsonMiddleware, hp, hmt, h1, h2]
    · simp [jsonMiddleware, hp, hmt]

/-- C7 (witness): the header `text/html`. -/
theorem jsonMiddleware_rejects_witness :
    jsonMiddleware ParseMediaType echoContent
        (bodyRequest "/".toList "text/html".toList 0 none) ⟨"/files".toList, sampleFS⟩ =
      (Result.response 415 (Payload.responseError "Bad request, invalid content-type"),
        ⟨"/files".toList, sampleFS⟩) :=
  jsonMiddleware_rejects ParseMediaType echoContent
    (bodyRequest "/".toList "text/html".toList 0 none) ⟨"/files".toList, sampleFS⟩
    (Or.inr ⟨"text/html".toList, [], by decide, Or.inl (by decide)⟩)

theorem decodeMember_err_mono (members : List (GoString × JSON)) (acc : contentBody × Bool)
    (h : acc.2 = true) : (members.foldl decodeMember acc).2 = true := by
  induction members generalizing acc with
  | nil => simpa using h
  | cons m members ih =>
    rw [List.foldl_cons]
    apply ih
    unfold decodeMember
    split
    · split <;> simp [h]
    · rfl

theorem decodeMember_err_of_unknown (members : List (GoString × JSON))
    (acc : contentBody × Bool) (h : ∃ m ∈ members, matchesContent m.1 = false) :
    (members.foldl decodeMember acc).2 = true := by
  induction members generalizing acc with
  | nil =>
    obtain ⟨m, hm, _⟩ := h
    simp at hm
  | cons m members ih =>
    rw [List.foldl_cons]
    obtain ⟨x, hx, hxm⟩ := h
    simp only [List.mem_cons] at hx
    rcases hx with rfl | hx
    · apply decodeMember_err_mono
      simp [decodeMember, hxm]
    · exact ih _ ⟨x, hx, hxm⟩

theorem decodeMember_absent (members : List (GoString × JSON)) (acc : contentBody × Bool)
    (h : ∀ m ∈ members, matchesContent m.1 = false) :
    (members.foldl decodeMember acc).1 = acc.1 := by
  induction members generalizing acc with
  | nil => rfl
  | cons m members ih =>
    rw [List.foldl_cons, ih _ (fun x hx => h x (by simp [hx]))]
    simp [decodeMember, h m (by simp)]

theorem contentMiddleware_bad_body
    (parse : GoString → Option (GoString × List (GoString × GoString)))
    (next : Handler) (req : Request) (st : Server) (mediaType : GoString)
    (params : List (GoString × GoString))
    (hparse : parse req.ContentType = some (mediaType, params))
    (hmt : mediaType = "application/json".toList)
    (hcs : params.lookup "charset".toList = some "utf-8".toList)
    (hlen : req.ContentLength > 0)
    (hbad : (Decode req.Body).2 = true ∨ (Decode req.Body).1.Content = []) :
    contentMiddleware parse next req st =
      (Result.response 400 (Payload.responseError "Bad request, json parse failed"), st) := by
  unfold contentMiddleware
  rw [jsonMiddleware_pass parse _ req st mediaType params hparse hmt hcs]
  have h1 : ¬ req.ContentLength ≤ 0 := by omega
  have h2 : (Decode req.Body).2 = true ∨ (Decode req.Body).1.Content.length ≤ 0 := by
    rcases hbad with h | h
    · exact Or.inl h
    · exact Or.inr (by simp [h])
  simp only [h1, ↓reduceIte, h2]

/-- C8 (counterexample): the body `{"content": "hello"}`, whose only field is
named `content` and not `Content`, is accepted: the decoder matches field names
without regard to case, and the next stage is called with the content
`hello`. -/
theorem contentMiddleware_accepts_lower_case_field :
    "content".toList ≠ "Content".toList ∧
      contentMiddleware ParseMediaType echoContent
          (bodyRequest "/".toList "application/json; charset=utf-8".toList 19
            (some (JSON.object [("content".toList, JSON.string "hello".toList)])))
          ⟨"/files".toList, sampleFS⟩ =
        (Result.response 200 (Payload.text "hello".toList), ⟨"/files".toList, sampleFS⟩) := by
  decide

/-- C8 (amended): for a request with a valid content type and a positive
`ContentLength`, `contentMiddleware` answers 400 and leaves the state as it
is, whatever the next stage is, when the body is a JSON object with a field
whose name does not match `Content` (the match ignores the case of letters),
whether or not it also carries a `Content`; when the body is an object without
any field matching `Content`; and when the decoded `Content` is empty. -/
theorem contentMiddleware_rejects
    (parse : GoString → Option (GoString × List (GoString × GoString)))
    (next : Handler) (req : Request) (st : Server) (mediaType : GoString)
    (params : List (GoString × GoString))
    (hparse : parse req.ContentType = some (mediaType, params))
    (hmt : mediaType = "application/json".toList)
    (hcs : params.lookup "charset".toList = some "utf-8".toList)
    (hlen : req.ContentLength > 0) :
    (∀ members, req.Body = some (JSON.object members) →
        (∃ m ∈ members, matchesContent m.1 = false) →
        contentMiddleware parse next req st =
          (Result.response 400 (Payload.responseError "Bad request, json parse failed"), st)) ∧
      (∀ members, req.Body = some (JSON.object members) →
        (∀ m ∈ members, matchesContent m.1 = false) →
        contentMiddleware parse next req st =
          (Result.response 400 (Payload.responseError "Bad request, json parse failed"), st)) ∧
      ((Decode req.Body).1.Content = [] →
        contentMiddleware parse next req st =
          (Result.response 400 (Payload.responseError "Bad request, json parse failed"), st)) := by
  refine ⟨?_, ?_, ?_⟩
  · intro members hbody hunknown
    apply contentMiddleware_bad_body parse next req st mediaType params hparse hmt hcs hlen
    left
    rw [hbody]
    exact decodeMember_err_of_unknown members _ hunknown
  · intro members hbody habsent
    apply contentMiddleware_bad_body parse next req st mediaType params hparse hmt hcs hlen
    right
    rw [hbody]
    simp only [Decode]
    rw [decodeMember_absent members _ habsent]
  · intro hempty
    exact contentMiddleware_bad_body parse next req st mediaType params hparse hmt hcs hlen
      (Or.inr hempty)

/-- C8 (witness): the body `{"Content": "hello world", "Code": 0}`. -/
theorem contentMiddleware_rejects_witness :
    contentMiddleware ParseMediaType echoContent
        (bodyRequest "/".toList "application/json; charset=utf-8".toList 34
          (some (JSON.object [("Content".toList, JSON.string "hello world".toList),
            ("Code".toList, JSON.number "0".toList)])))
        ⟨"/files".toList, sampleFS⟩ =
      (Result.response 400 (Payload.responseError "Bad request, json parse failed"),
        ⟨"/files".toList, sampleFS⟩) :=
  (contentMiddleware_rejects ParseMediaType echoContent
    (bodyRequest "/".toList "application/json; charset=utf-8".toList 34
      (some (JSON.object [("Content".toList, JSON.string "hello world".toList),
        ("Code".toList, JSON.number "0".toList)])))
    ⟨"/files".toList, sampleFS⟩ "application/json".toList
    [("charset".toList, "utf-8".toList)] (by decide) (by rfl) (by decide) (by decide)).1
    _ rfl ⟨("Code".toList, JSON.number "0".toList), by simp, by decide⟩

/-! ## Properties of the existence guards -/

theorem fileExistsMiddleware_blocks (next : Handler) (req : Request) (st : Server)
    (fileName : GoString) (hctx : req.ctxFileName = some fileName)
    (h : (∃ e, Stat st.fs fileName = Except.error e) ∨ Stat st.fs fileName = Except.ok Node.dir) :
    fileExistsMiddleware next req st =
      (Result.response 404 (Payload.responseError "File does not exist"), st) := by
  unfold fileExistsMiddleware
  rw [hctx]
  rcases h with ⟨e, h⟩ | h <;> simp [h, Node.IsDir]

theorem fileExistsMiddleware_passes (next : Handler) (req : Request) (st : Server)
    (fileName d : GoString) (hctx : req.ctxFileName = some fileName)
    (h : Stat st.fs fileName = Except.ok (Node.file d)) :
    fileExistsMiddleware next req st = next req st := by
  unfold fileExistsMiddleware
  rw [hctx]
  simp [h, Node.IsDir]

/-- C10: let `p` be the file name resolved for the request path `P ++ s`. When
`os.Stat` fails on `p` (it does not exist) or finds a directory, the guard
`fileExistsMiddleware` answers 404 whatever the next stage is, and so do
`modifyFileHandler` (whatever the header and the body of the request),
`removeFileHandler` and `retrieveFileHandler`, all leaving the file system as
it is; when `p` is a regular file the guard hands the request on. -/
theorem fileExistsMiddleware_guard
    (parse : GoString → Option (GoString × List (GoString × GoString)))
    (P s : GoString) (req : Request) (st : Server) (hreq : req.Path = P ++ s) :
    ((∃ e, Stat st.fs
          (filePathMiddleware.fileName (filePathMiddleware.fileDir st.fileDir st.fs) s) =
          Except.error e) ∨
        Stat st.fs (filePathMiddleware.fileName (filePathMiddleware.fileDir st.fileDir st.fs) s) =
          Except.ok Node.dir →
      (∀ next : Handler,
        filePathMiddleware P (fileExistsMiddleware next) req st =
          (Result.response 404 (Payload.responseError "File does not exist"),
            { st with fileDir := filePathMiddleware.fileDir st.fileDir st.fs })) ∧
      modifyFileHandler parse P req st =
        (Result.response 404 (Payload.responseError "File does not exist"),
          { st with fileDir := filePathMiddleware.fileDir st.fileDir st.fs }) ∧
      removeFileHandler P req st =
        (Result.response 404 (Payload.responseError "File does not exist"),
          { st with fileDir := filePathMiddleware.fileDir st.fileDir st.fs }) ∧
      retrieveFileHandler P req st =
        (Result.response 404 (Payload.responseError "File does not exist"),
          { st with fileDir := filePathMiddleware.fileDir st.fileDir st.fs }) ∧
      (modifyFileHandler parse P req st).2.fs = st.fs ∧
      (removeFileHandler P req st).2.fs = st.fs ∧
      (retrieveFileHandler P req st).2.fs = st.fs) ∧
    (∀ d : GoString,
      Stat st.fs (filePathMiddleware.fileName (filePathMiddleware.fileDir st.fileDir st.fs) s) =
        Except.ok (Node.file d) →
      ∀ next : Handler,
        filePathMiddleware P (fileExistsMiddleware next) req st =
          next
            { req with
              Path := s
              ctxFileName := some
                (filePathMiddleware.fileName (filePathMiddleware.fileDir st.fileDir st.fs) s) }
            { st with fileDir := filePathMiddleware.fileDir st.fileDir st.fs }) := by
  constructor
  · intro h
    have hblock : ∀ next : Handler,
        filePathMiddleware P (fileExistsMiddleware next) req st =
          (Result.response 404 (Payload.responseError "File does not exist"),
            { st with fileDir := filePathMiddleware.fileDir st.fileDir st.fs }) := by
      intro next
      rw [filePathMiddleware_apply P s _ req st hreq]
      exact fileExistsMiddleware_blocks next _ _ _ rfl h
    refine ⟨hblock, hblock _, hblock _, hblock _, ?_, ?_, ?_⟩
    · unfold modifyFileHandler; rw [hblock]
    · unfold removeFileHandler; rw [hblock]
    · unfold retrieveFileHandler; rw [hblock]
  · intro d h next
    rw [filePathMiddleware_apply P s _ req st hreq]
    exact fileExistsMiddleware_passes next _ _ _ d rfl h

/-- C10 (witness): `DELETE /test` with the root `/files` on a file system that
has no `/files/test.txt`. -/
theorem fileExistsMiddleware_guard_witness :
    removeFileHandler "/".toList (getRequest "/test".toList) ⟨"/files".toList, sampleFS⟩ =
      (Result.response 404 (Payload.responseError "File does not exist"),
        ⟨"/files".toList, sampleFS⟩) :=
  ((fileExistsMiddleware_guard ParseMediaType "/".toList "test".toList
    (getRequest "/test".toList) ⟨"/files".toList, sampleFS⟩ (by rfl)).1
    (Or.inl ⟨Errno.ENOENT, by rfl⟩)).2.2.1

/-! ## Lexical resolution of cleaned paths -/

theorem elements_intercalate (names : List GoString) (h0 : names ≠ [])
    (h : ∀ e ∈ names, '/' ∉ e) : elements (['/'].intercalate names) = names := by
  induction names with
  | nil => exact absurd rfl h0
  | cons a rest ih =>
    cases rest with
    | nil =>
      simp only [List.intercalate, List.intersperse, List.flatten, List.append_nil]
      exact elements_of_name a (h a (by simp))
    | cons b rest =>
      rw [intercalate_cons_cons]
      have h1 : a ++ ['/'] ++ ['/'].intercalate (b :: rest) =
          a ++ '/' :: ['/'].intercalate (b :: rest) := by simp
      rw [h1, elements_append_sep, elements_of_name a (h a (by simp)),
        ih (by simp) (fun e he => h e (by simp [he]))]
      rfl

theorem isRooted_intercalate (names : List GoString) (h0 : names ≠ [])
    (h : ∀ e ∈ names, e ≠ [] ∧ '/' ∉ e) : isRooted (['/'].intercalate names) = false := by
  cases names with
  | nil => exact absurd rfl h0
  | cons a rest =>
    have ha := h a (by simp)
    cases a with
    | nil => exact absurd rfl ha.1
    | cons c a =>
      have hc : c ≠ '/' := by
        intro hc
        apply ha.2
        simp [hc]
      cases rest with
      | nil => simp [List.intercalate, List.intersperse, isRooted, hc]
      | cons b rest =>
        rw [intercalate_cons_cons]
        simp [isRooted, hc]

theorem goodStack_reverse (S : List GoString) (hS : goodStack S) :
    ∀ e ∈ S.reverse, e ≠ [] ∧ '/' ∉ e := by
  intro e he
  exact hS e (by simpa using he)

theorem isRooted_render (r : Bool) (S : List GoString) (hS : goodStack S) :
    isRooted (render r S) = r := by
  cases r with
  | true => simp [render, isRooted]
  | false =>
    by_cases h : S = []
    · subst h; rfl
    · have h1 : S.reverse ≠ [] := by simpa using h
      simp only [render, Bool.false_eq_true, ↓reduceIte, h]
      exact isRooted_intercalate _ h1 (goodStack_reverse S hS)

theorem foldl_elements_render (r : Bool) (S T : List GoString) (hS : goodStack S) :
    (elements (render r S)).foldl (cleanStep true) T = S.reverse.foldl (cleanStep true) T := by
  have hsep : ∀ e ∈ S.reverse, '/' ∉ e := fun e he => (goodStack_reverse S hS e he).2
  by_cases h : S = []
  · subst h
    cases r <;> simp [render, elements, cleanStep, List.intercalate, List.intersperse]
  · have h1 : S.reverse ≠ [] := by simpa using h
    cases r with
    | true =>
      simp only [render, ↓reduceIte, elements, List.foldl_cons, cleanStep_nil]
      rw [elements_intercalate _ h1 hsep]
    | false =>
      simp only [render, Bool.false_eq_true, ↓reduceIte, h]
      rw [elements_intercalate _ h1 hsep]

theorem keptStack_cleanStep (r : Bool) (S : List GoString) (e : GoString)
    (hS : keptStack S) : keptStack (cleanStep r S e) := by
  unfold cleanStep
  split
  · exact hS
  · rename_i h0
    have hne : e ≠ [] ∧ e ≠ ['.'] := ⟨fun h => h0 (Or.inl h), fun h => h0 (Or.inr h)⟩
    split
    · cases S with
      | nil =>
        cases r
        · intro x hx
          simp only [Bool.false_eq_true, ↓reduceIte, List.mem_singleton] at hx
          subst hx
          exact hne
        · simpa using hS
      | cons top below =>
        simp only
        split
        · intro x hx
          simp only [List.mem_cons] at hx
          rcases hx with rfl | hx
          · exact hne
          · exact hS x (by simpa using hx)
        · intro x hx
          exact hS x (by simp [hx])
    · intro x hx
      simp only [List.mem_cons] at hx
      rcases hx with rfl | hx
      · exact hne
      · exact hS x hx

theorem keptStack_foldl (r : Bool) (es : List GoString) (S : List GoString)
    (hS : keptStack S) : keptStack (es.foldl (cleanStep r) S) := by
  induction es generalizing S with
  | nil => simpa using hS
  | cons e es ih =>
    rw [List.foldl_cons]
    exact ih _ (keptStack_cleanStep r S e hS)

theorem foldl_cleanStep_reverse (r : Bool) (T : List GoString) (hT : r = true → T = [])
    (es : List GoString) :
    ((es.foldl (cleanStep r) []).reverse).foldl (cleanStep true) T =
      es.foldl (cleanStep true) T := by
  induction es using List.reverseRecOn with
  | nil => rfl
  | append_singleton es e ih =>
    rw [List.foldl_append, List.foldl_append, List.foldl_cons, List.foldl_nil, List.foldl_cons,
      List.foldl_nil, ← ih]
    have hkept : keptStack (es.foldl (cleanStep r) []) :=
      keptStack_foldl r es [] (by intro x hx; simp at hx)
    generalize es.foldl (cleanStep r) [] = S at hkept ⊢
    by_cases h0 : e = [] ∨ e = ['.']
    · simp [cleanStep, h0]
    · by_cases h1 : e = ['.', '.']
      · subst h1
        cases S with
        | nil =>
          cases r with
          | false => simp [cleanStep]
          | true => simp [cleanStep, hT rfl]
        | cons top below =>
          have htop := hkept top (by simp)
          by_cases h2 : top = ['.', '.']
          · simp [cleanStep, h2, List.foldl_append]
          · have h3 : cleanStep r (top :: below) ['.', '.'] = below := by
              simp [cleanStep, h2]
            rw [h3]
            simp [List.foldl_append, cleanStep, htop.1, htop.2, h2]
      · have h2 : cleanStep r S e = e :: S := by
          simp only [cleanStep, h0, ↓reduceIte, h1]
        rw [h2]
        simp [List.foldl_append]

theorem goodStack_Clean (q : GoString) :
    goodStack ((elements q).foldl (cleanStep (isRooted q)) []) :=
  goodStack_foldl _ _ _ (by intro e he; simp at he) (mem_elements_no_sep q)

theorem Clean_ne_nil (q : GoString) : Clean q ≠ [] := by
  by_cases hq : q = []
  · subst hq; decide
  · rw [Clean_of_ne_nil q hq]
    have hgood := goodStack_Clean q
    generalize (elements q).foldl (cleanStep (isRooted q)) [] = S at hgood
    cases hr : isRooted q with
    | true => simp [render]
    | false =>
      by_cases hS : S = []
      · subst hS; decide
      · have h1 : S.reverse ≠ [] := by simpa using hS
        have h2 := isRooted_intercalate _ h1 (goodStack_reverse S hgood)
        simp only [render, Bool.false_eq_true, ↓reduceIte, hS]
        obtain ⟨pre, hpre⟩ := intercalate_getLast ['/'] S.reverse h1
        rw [hpre]
        have h3 := (goodStack_reverse S hgood (S.reverse.getLast h1) (List.getLast_mem h1)).1
        intro h4
        rw [List.append_eq_nil] at h4
        exact h3 h4.2

theorem resolve_Clean (fs : FS) (q : GoString) : fs.resolve (Clean q) = fs.resolve q := by
  by_cases hq : q = []
  · subst hq
    simp [Clean, FS.resolve, isRooted, elements, cleanStep]
  · rw [Clean_of_ne_nil q hq]
    have hgood := goodStack_Clean q
    unfold FS.resolve
    rw [isRooted_render _ _ hgood, foldl_elements_render _ _ _ hgood]
    rw [foldl_cleanStep_reverse (isRooted q) _ (by intro h; simp [h]) (elements q)]

theorem not_rooted_of_name (n : GoString) (h : '/' ∉ n) : isRooted n = false := by
  cases n with
  | nil => rfl
  | cons c n =>
    have hc : c ≠ '/' := by
      intro hc
      apply h
      simp [hc]
    simp [isRooted, hc]

theorem dropWhile_head (f : Char → Bool) (l : List Char) (c : Char) (t : List Char)
    (h : l.dropWhile f = c :: t) : f c = false := by
  induction l with
  | nil => simp at h
  | cons a l ih =>
    rw [List.dropWhile_cons] at h
    split at h
    · exact ih h
    · rename_i hf
      simp only [List.cons.injEq] at h
      rw [← h.1]
      simpa using hf

theorem Dir_txt (J : GoString) :
    Dir (J ++ ['.', 't', 'x', 't']) =
      Clean ((J.reverse.dropWhile (fun c => c ≠ '/')).reverse) := by
  simp [Dir, List.dropWhile]

theorem resolve_txt (fs : FS) (J : GoString) :
    fs.resolve (J ++ ['.', 't', 'x', 't']) =
      fs.resolve (Dir (J ++ ['.', 't', 'x', 't'])) ++
        [(J.reverse.takeWhile (fun c => c ≠ '/')).reverse ++ ['.', 't', 'x', 't']] := by
  rw [Dir_txt, resolve_Clean]
  have hJ : J = (J.reverse.dropWhile (fun c => c ≠ '/')).reverse ++
      (J.reverse.takeWhile (fun c => c ≠ '/')).reverse := by
    rw [← List.reverse_append, List.takeWhile_append_dropWhile, List.reverse_reverse]
  have hl : '/' ∉ (J.reverse.takeWhile (fun c => c ≠ '/')).reverse := by
    intro h
    have h1 := List.mem_takeWhile_imp (List.mem_reverse.mp h)
    simp at h1
  have hq : J.reverse.dropWhile (fun c => c ≠ '/') = [] ∨
      ∃ t, J.reverse.dropWhile (fun c => c ≠ '/') = '/' :: t := by
    cases h : J.reverse.dropWhile (fun c => c ≠ '/') with
    | nil => exact Or.inl rfl
    | cons c t =>
      right
      have h1 := dropWhile_head _ _ c t h
      simp only [ne_eq, decide_not, Bool.not_eq_false', decide_eq_true_eq] at h1
      exact ⟨t, by rw [h1]⟩
  generalize (J.reverse.takeWhile (fun c => c ≠ '/')).reverse = l at hJ hl
  generalize J.reverse.dropWhile (fun c => c ≠ '/') = qr at hJ hq
  have hn : '/' ∉ l ++ ['.', 't', 'x', 't'] := by
    simp only [List.mem_append, not_or]
    exact ⟨hl, by decide⟩
  have hn0 : l ++ ['.', 't', 'x', 't'] ≠ [] := by simp
  have hn1 : l ++ ['.', 't', 'x', 't'] ≠ ['.'] := by
    intro h
    have := congrArg List.length h
    simp at this
  have hn2 : l ++ ['.', 't', 'x', 't'] ≠ ['.', '.'] := by
    intro h
    have := congrArg List.length h
    simp at this
  have hstep : ∀ X, cleanStep true X (l ++ ['.', 't', 'x', 't']) =
      (l ++ ['.', 't', 'x', 't']) :: X := by
    intro X
    simp only [cleanStep, hn0, hn1, hn2, or_self, ↓reduceIte]
  rw [hJ, List.append_assoc]
  rcases hq with hq | ⟨t, hq⟩
  · subst hq
    simp only [List.reverse_nil, List.nil_append]
    unfold FS.resolve
    rw [not_rooted_of_name _ hn, elements_of_name _ hn]
    simp [isRooted, elements, cleanStep_nil, hstep]
  · subst hq
    have h1 : ('/' :: t).reverse ++ (l ++ ['.', 't', 'x', 't']) =
        t.reverse ++ '/' :: (l ++ ['.', 't', 'x', 't']) := by simp
    have h2 : ('/' :: t).reverse = t.reverse ++ '/' :: [] := by simp
    have h3 : isRooted (t.reverse ++ '/' :: (l ++ ['.', 't', 'x', 't'])) =
        isRooted (t.reverse ++ '/' :: []) := by
      cases t.reverse <;> simp [isRooted]
    unfold FS.resolve
    rw [h1, h2, h3, elements_append_sep, elements_append_sep, elements_of_name _ hn]
    simp [List.foldl_append, elements, cleanStep_nil, hstep]

/-! ## The file system model -/

theorem FS.closed_of_wf (fs : FS) (h : fs.wf = true) : fs.closed := by
  intro k e hget
  have hne : k ++ [e] ≠ [] := by simp
  simp only [FS.get, hne, ↓reduceIte, ne_eq, Option.map_eq_none', ] at hget
  cases hf : fs.nodes.find? (fun x => x.1 = k ++ [e]) with
  | none => exact absurd hf hget
  | some x =>
    have hmem := List.mem_of_find?_eq_some hf
    have hx := List.find?_some hf
    simp only [decide_eq_true_eq] at hx
    simp only [FS.wf, List.all_eq_true, decide_eq_true_eq] at h
    rcases h x hmem with h1 | h1
    · rw [hx] at h1; exact absurd h1 hne
    · rw [hx] at h1
      simpa using h1

theorem find?_filter_ne (nodes : List (List GoString × Node)) (k x : List GoString)
    (hx : x ≠ k) :
    (nodes.filter (fun e => e.1 ≠ k)).find? (fun e => e.1 = x) =
      nodes.find? (fun e => e.1 = x) := by
  induction nodes with
  | nil => rfl
  | cons a nodes ih =>
    rw [List.filter_cons]
    by_cases ha : a.1 = k
    · have h1 : ¬ a.1 = x := by rw [ha]; exact fun h => hx h.symm
      rw [if_neg (by simpa using ha), List.find?_cons_of_neg _ (by simpa using h1)]
      exact ih
    · rw [if_pos (by simpa using ha)]
      by_cases h1 : a.1 = x
      · rw [List.find?_cons_of_pos _ (by simpa using h1),
          List.find?_cons_of_pos _ (by simpa using h1)]
      · rw [List.find?_cons_of_neg _ (by simpa using h1),
          List.find?_cons_of_neg _ (by simpa using h1)]
        exact ih

theorem FS.get_set (fs : FS) (k x : List GoString) (v : Node) (hk : k ≠ []) :
    (fs.set k v).get x = if x = k then some v else fs.get x := by
  by_cases hx0 : x = []
  · subst hx0
    have h1 : ¬ ([] : List GoString) = k := fun h => hk h.symm
    simp [FS.get, h1]
  · by_cases hxk : x = k
    · subst hxk
      simp [FS.get, FS.set, hx0]
    · have h1 : ¬ k = x := fun h => hxk h.symm
      simp only [FS.get, hx0, ↓reduceIte, FS.set, hxk, List.find?_cons, h1, decide_False]
      rw [find?_filter_ne _ _ _ hxk]

theorem FS.cwd_set (fs : FS) (k : List GoString) (v : Node) : (fs.set k v).cwd = fs.cwd := rfl

theorem FS.resolve_cwd (fs fs1 : FS) (h : fs1.cwd = fs.cwd) (p : GoString) :
    fs1.resolve p = fs.resolve p := by
  simp [FS.resolve, h]

theorem FS.walk_snoc (fs : FS) (l cur : List GoString) (n : GoString) :
    fs.walk cur (l ++ [n]) =
      match fs.walk cur l with
      | Except.ok Node.dir =>
        (match fs.get (cur ++ l ++ [n]) with
        | some v => Except.ok v
        | none => Except.error Errno.ENOENT)
      | Except.ok (Node.file _) => Except.error Errno.ENOTDIR
      | Except.error e => Except.error e := by
  induction l generalizing cur with
  | nil =>
    simp only [List.nil_append, FS.walk, List.append_nil]
    cases h : fs.get cur with
    | none => rfl
    | some v => cases v <;> rfl
  | cons e l ih =>
    simp only [List.cons_append, FS.walk, List.append_eq]
    cases h : fs.get cur with
    | none => rfl
    | some v =>
      cases v with
      | file d => rfl
      | dir =>
        simp only
        rw [ih]
        simp [List.append_assoc]

theorem FS.walk_congr (fs fs1 : FS) (l cur : List GoString)
    (h : ∀ l1, l1 <+: l → fs1.get (cur ++ l1) = fs.get (cur ++ l1)) :
    fs1.walk cur l = fs.walk cur l := by
  induction l generalizing cur with
  | nil =>
    have h1 := h [] (List.prefix_refl _)
    simp only [List.append_nil] at h1
    simp [FS.walk, h1]
  | cons e l ih =>
    have h1 := h [] (List.nil_prefix)
    simp only [List.append_nil] at h1
    simp only [FS.walk, h1]
    cases hg : fs.get cur with
    | none => rfl
    | some v =>
      cases v with
      | file d => rfl
      | dir =>
        simp only
        apply ih
        intro l1 hl1
        have h2 := h (e :: l1) (List.cons_prefix_cons.mpr ⟨rfl, hl1⟩)
        simpa [List.append_assoc] using h2

theorem FS.walk_set_longer (fs : FS) (kd : List GoString) (n : GoString) (v : Node) :
    (fs.set (kd ++ [n]) v).walk [] kd = fs.walk [] kd := by
  apply FS.walk_congr
  intro l1 hl1
  rw [FS.get_set _ _ _ _ (by simp)]
  have h1 : ¬ l1 = kd ++ [n] := by
    intro h
    have h2 := List.IsPrefix.length_le hl1
    have h3 := congrArg List.length h
    simp at h3
    omega
  simp [h1]

theorem FS.closed_set_dir (fs : FS) (k : List GoString) (e : GoString) (hfs : fs.closed)
    (hk : fs.get k = some Node.dir) : (fs.set (k ++ [e]) Node.dir).closed := by
  intro x e1 hget
  rw [FS.get_set _ _ _ _ (by simp)] at hget ⊢
  by_cases hx : x = k ++ [e]
  · simp [hx]
  · rw [if_neg hx]
    by_cases h1 : x ++ [e1] = k ++ [e]
    · have h2 : x = k := by
        have := List.append_inj' h1 rfl
        exact this.1
      rw [h2]; exact hk
    · rw [if_neg h1] at hget
      exact hfs x e1 hget

theorem MkdirAll.go_spec (rest : List GoString) (n : GoString) :
    ∀ (fs : FS) (cur : List GoString), fs.closed → fs.get cur = some Node.dir →
      fs.walk cur (rest ++ [n]) = Except.error Errno.ENOENT →
      ∃ fs1, MkdirAll.go fs cur rest = Except.ok fs1 ∧ fs1.walk cur rest = Except.ok Node.dir ∧
        fs1.get (cur ++ rest ++ [n]) = none ∧ fs1.cwd = fs.cwd ∧
        (∀ x v, fs.get x = some v → fs1.get x = some v) := by
  induction rest with
  | nil =>
    intro fs cur _ hcur hwalk
    refine ⟨fs, rfl, by simp [FS.walk, hcur], ?_, rfl, fun x v h => h⟩
    simp only [List.nil_append, FS.walk, hcur] at hwalk
    cases h : fs.get (cur ++ [n]) with
    | none => simpa using h
    | some v => rw [h] at hwalk; exact Except.noConfusion hwalk
  | cons e rest ih =>
    intro fs cur hclosed hcur hwalk
    simp only [List.cons_append, FS.walk, hcur, List.append_eq] at hwalk
    have hassoc : ∀ l : List GoString, cur ++ e :: l = cur ++ [e] ++ l := by
      intro l; simp
    cases hget : fs.get (cur ++ [e]) with
    | some v =>
      cases v with
      | file d =>
        exfalso
        cases hr : rest ++ [n] with
        | nil => simp at hr
        | cons a t =>
          rw [hr] at hwalk
          simp only [FS.walk, hget] at hwalk
          exact Errno.noConfusion (Except.error.inj hwalk)
      | dir =>
        obtain ⟨fs1, h1, h2, h3, h4, h5⟩ := ih fs (cur ++ [e]) hclosed hget hwalk
        refine ⟨fs1, ?_, ?_, ?_, h4, h5⟩
        · simp only [MkdirAll.go, hget]; exact h1
        · simp only [FS.walk, h5 cur _ hcur]; exact h2
        · rw [hassoc]; simpa [List.append_assoc] using h3
    | none =>
      have hclosed1 := FS.closed_set_dir fs cur e hclosed hcur
      have hget1 : (fs.set (cur ++ [e]) Node.dir).get (cur ++ [e]) = some Node.dir := by
        rw [FS.get_set _ _ _ _ (by simp)]; simp
      have hwalk1 : (fs.set (cur ++ [e]) Node.dir).walk (cur ++ [e]) (rest ++ [n]) =
          Except.error Errno.ENOENT := by
        cases hr : rest ++ [n] with
        | nil => simp at hr
        | cons a t =>
          have hchild : (fs.set (cur ++ [e]) Node.dir).get (cur ++ [e] ++ [a]) = none := by
            rw [FS.get_set _ _ _ _ (by simp)]
            have h1 : ¬ cur ++ [e] ++ [a] = cur ++ [e] := by
              intro h
              have := congrArg List.length h
              simp at this
            rw [if_neg h1]
            by_contra hne
            have := hclosed (cur ++ [e]) a hne
            rw [hget] at this
            exact Option.noConfusion this
          cases t with
          | nil => simp only [FS.walk, hget1, hchild]
          | cons b t => simp only [FS.walk, hget1, hchild]
      obtain ⟨fs1, h1, h2, h3, h4, h5⟩ :=
        ih (fs.set (cur ++ [e]) Node.dir) (cur ++ [e]) hclosed1 hget1 hwalk1
      have hpres : ∀ x v, fs.get x = some v → fs1.get x = some v := by
        intro x v hx
        apply h5
        rw [FS.get_set _ _ _ _ (by simp)]
        have h6 : ¬ x = cur ++ [e] := by
          intro h; rw [h, hget] at hx; exact Option.noConfusion hx
        rw [if_neg h6]; exact hx
      refine ⟨fs1, ?_, ?_, ?_, ?_, hpres⟩
      · simp only [MkdirAll.go, hget]; exact h1
      · simp only [FS.walk, hpres cur _ hcur]; exact h2
      · rw [hassoc]; simpa [List.append_assoc] using h3
      · rw [h4]; rfl

theorem Stat_written (fs0 : FS) (p : GoString) (kd : List GoString) (n C : GoString) (v : Node)
    (hp : p ≠ []) (hsfx : HasSuffix p ['/'] = false) (hres : fs0.resolve p = kd ++ [n])
    (hwalk : fs0.walk [] kd = Except.ok Node.dir) :
    Stat ((fs0.set (kd ++ [n]) v).set (kd ++ [n]) (Node.file C)) p =
      Except.ok (Node.file C) := by
  have hres1 : ((fs0.set (kd ++ [n]) v).set (kd ++ [n]) (Node.file C)).resolve p = kd ++ [n] := by
    exact hres
  have hw : ((fs0.set (kd ++ [n]) v).set (kd ++ [n]) (Node.file C)).walk [] (kd ++ [n]) =
      Except.ok (Node.file C) := by
    rw [FS.walk_snoc, FS.walk_set_longer, FS.walk_set_longer, hwalk]
    simp only [List.nil_append]
    rw [FS.get_set _ _ _ _ (by simp)]
    simp
  simp only [Stat, FS.lookup, hp, ↓reduceIte, hres1, hw, hsfx, Bool.false_eq_true]

theorem walk_of_Stat_ENOENT (fs : FS) (p : GoString)
    (h : Stat fs p = Except.error Errno.ENOENT) (hp : p ≠ []) :
    fs.walk [] (fs.resolve p) = Except.error Errno.ENOENT := by
  simp only [Stat, FS.lookup, hp, ↓reduceIte] at h
  cases hw : fs.walk [] (fs.resolve p) with
  | error e =>
    rw [hw] at h
    simpa using h
  | ok v =>
    rw [hw] at h
    cases v with
    | dir => exact Except.noConfusion h
    | file d =>
      simp only at h
      split at h
      · exact Errno.noConfusion (Except.error.inj h)
      · exact Except.noConfusion h

theorem of_Stat_file (fs : FS) (p d : GoString) (h : Stat fs p = Except.ok (Node.file d)) :
    p ≠ [] ∧ HasSuffix p ['/'] = false ∧ fs.walk [] (fs.resolve p) = Except.ok (Node.file d) := by
  by_cases hp : p = []
  · subst hp
    simp [Stat, FS.lookup] at h
  · refine ⟨hp, ?_⟩
    simp only [Stat, FS.lookup, hp, ↓reduceIte] at h
    cases hw : fs.walk [] (fs.resolve p) with
    | error e => rw [hw] at h; exact Except.noConfusion h
    | ok v =>
      rw [hw] at h
      cases v with
      | dir => simp at h
      | file d1 =>
        simp only at h
        split at h
        · exact Except.noConfusion h
        · rename_i hs
          simp only [Except.ok.injEq, Node.file.injEq] at h
          subst h
          exact ⟨by simpa using hs, rfl⟩

theorem createFileHandler_terminal_ok (req : Request) (st : Server) (J C : GoString)
    (hname : req.ctxFileName = some (J ++ ['.', 't', 'x', 't']))
    (hcontent : req.ctxContent = some C) (hwf : st.fs.wf = true)
    (hstat : Stat st.fs (J ++ ['.', 't', 'x', 't']) = Except.error Errno.ENOENT) :
    ∃ fs3, createFileHandler.terminal req st =
        (Result.response 200 Payload.done, { st with fs := fs3 }) ∧
      Stat fs3 (J ++ ['.', 't', 'x', 't']) = Except.ok (Node.file C) := by
  have hp : J ++ ['.', 't', 'x', 't'] ≠ [] := by simp
  have hsfx : HasSuffix (J ++ ['.', 't', 'x', 't']) ['/'] = false := by
    have := not_suffix_sep J ['.', 't', 'x', 't'] (by simp) (by decide)
    exact this
  have hres := resolve_txt st.fs J
  have hwalk := walk_of_Stat_ENOENT st.fs _ hstat hp
  rw [hres] at hwalk
  generalize (J.reverse.takeWhile (fun c => c ≠ '/')).reverse ++ ['.', 't', 'x', 't'] = n
    at hres hwalk
  generalize hkd : st.fs.resolve (Dir (J ++ ['.', 't', 'x', 't'])) = kd at hres hwalk
  obtain ⟨fs1, h1, h2, h3, h4, _⟩ :=
    MkdirAll.go_spec kd n st.fs [] (FS.closed_of_wf _ hwf) (by simp [FS.get]) hwalk
  simp only [List.nil_append] at h3
  have hmk : MkdirAll st.fs (Dir (J ++ ['.', 't', 'x', 't'])) = Except.ok fs1 := by
    simp only [MkdirAll, Dir, Clean_ne_nil, ↓reduceIte]
    simp only [Dir] at hkd
    rw [hkd]; exact h1
  have hres1 : fs1.resolve (J ++ ['.', 't', 'x', 't']) = kd ++ [n] := by
    rw [FS.resolve_cwd _ _ h4]; exact hres
  have hopen : OpenFile fs1 (J ++ ['.', 't', 'x', 't']) true false =
      Except.ok (fs1.set (kd ++ [n]) (Node.file []), kd ++ [n]) := by
    simp only [OpenFile, hp, ↓reduceIte, hres1, List.dropLast_concat, h2, h3, hsfx,
      not_true_eq_false, Bool.false_eq_true]
  have hwrite : FileWrite (fs1.set (kd ++ [n]) (Node.file [])) (kd ++ [n]) C =
      Except.ok ((fs1.set (kd ++ [n]) (Node.file [])).set (kd ++ [n]) (Node.file C)) := by
    simp only [FileWrite]
    rw [FS.get_set _ _ _ _ (by simp)]
    simp
  refine ⟨_, ?_, Stat_written fs1 _ kd n C (Node.file []) hp hsfx hres1 h2⟩
  simp only [createFileHandler.terminal, hname, hcontent, hmk, hopen, hwrite]

theorem modifyFileHandler_terminal_ok (req : Request) (st : Server) (p C d : GoString)
    (hname : req.ctxFileName = some p) (hcontent : req.ctxContent = some C)
    (hstat : Stat st.fs p = Except.ok (Node.file d)) :
    ∃ fs2, modifyFileHandler.terminal req st =
        (Result.response 200 Payload.done, { st with fs := fs2 }) ∧
      Stat fs2 p = Except.ok (Node.file C) := by
  obtain ⟨hp, hsfx, hwalk⟩ := of_Stat_file st.fs p d hstat
  have hk : st.fs.resolve p ≠ [] := by
    intro h
    rw [h] at hwalk
    simp [FS.walk, FS.get] at hwalk
  obtain ⟨kd, n, hres⟩ : ∃ kd n, st.fs.resolve p = kd ++ [n] :=
    ⟨_, _, (List.dropLast_append_getLast hk).symm⟩
  rw [hres, FS.walk_snoc] at hwalk
  have hwd : st.fs.walk [] kd = Except.ok Node.dir := by
    cases hw : st.fs.walk [] kd with
    | error e => rw [hw] at hwalk; exact Except.noConfusion hwalk
    | ok v =>
      cases v with
      | dir => rfl
      | file d1 => rw [hw] at hwalk; exact Except.noConfusion hwalk
  rw [hwd] at hwalk
  simp only [List.nil_append] at hwalk
  have hget : st.fs.get (kd ++ [n]) = some (Node.file d) := by
    cases hg : st.fs.get (kd ++ [n]) with
    | none => rw [hg] at hwalk; exact Except.noConfusion hwalk
    | some v =>
      rw [hg] at hwalk
      simp only [Except.ok.injEq] at hwalk
      rw [hwalk]
  have hopen : OpenFile st.fs p false true =
      Except.ok (st.fs.set (kd ++ [n]) (Node.file []), kd ++ [n]) := by
    simp only [OpenFile, hp, ↓reduceIte, hres, List.dropLast_concat, hwd, hget, hsfx,
      Bool.false_eq_true]
  have hwrite : FileWrite (st.fs.set (kd ++ [n]) (Node.file [])) (kd ++ [n]) C =
      Except.ok ((st.fs.set (kd ++ [n]) (Node.file [])).set (kd ++ [n]) (Node.file C)) := by
    simp only [FileWrite]
    rw [FS.get_set _ _ _ _ (by simp)]
    simp
  refine ⟨_, ?_, Stat_written st.fs _ kd n C (Node.file []) hp hsfx hres hwd⟩
  simp only [modifyFileHandler.terminal, hname, hcontent, hopen, hwrite]

/-! ## Properties of the create, modify and retrieve operations -/

theorem contentMiddleware_pass
    (parse : GoString → Option (GoString × List (GoString × GoString)))
    (next : Handler) (req : Request) (st : Server) (mediaType : GoString)
    (params : List (GoString × GoString))
    (hparse : parse req.ContentType = some (mediaType, params))
    (hmt : mediaType = "application/json".toList)
    (hcs : params.lookup "charset".toList = some "utf-8".toList)
    (hlen : req.ContentLength > 0)
    (herr : (Decode req.Body).2 = false) (hC : (Decode req.Body).1.Content ≠ []) :
    contentMiddleware parse next req st =
      next { req with ctxContent := some (Decode req.Body).1.Content } st := by
  unfold contentMiddleware
  rw [jsonMiddleware_pass parse _ req st mediaType params hparse hmt hcs]
  have h1 : ¬ req.ContentLength ≤ 0 := by omega
  have h2 : ¬ ((Decode req.Body).2 = true ∨ (Decode req.Body).1.Content.length ≤ 0) := by
    rintro (h | h)
    · rw [herr] at h; exact Bool.noConfusion h
    · exact hC (List.length_eq_zero.mp (by omega))
  simp only [h1, ↓reduceIte, h2]

theorem fileNotExistsMiddleware_passes (next : Handler) (req : Request) (st : Server)
    (fileName : GoString) (hctx : req.ctxFileName = some fileName)
    (h : Stat st.fs fileName = Except.error Errno.ENOENT) :
    fileNotExistsMiddleware next req st = next req st := by
  unfold fileNotExistsMiddleware
  rw [hctx]
  simp [h, IsNotExist]

theorem fileNotExistsMiddleware_blocks (next : Handler) (req : Request) (st : Server)
    (fileName : GoString) (v : Node) (hctx : req.ctxFileName = some fileName)
    (h : Stat st.fs fileName = Except.ok v) :
    fileNotExistsMiddleware next req st =
      (Result.response 403 (Payload.responseError "File does exist"), st) := by
  unfold fileNotExistsMiddleware
  rw [hctx]
  simp [h]

theorem fileDir_idem (fileDir : GoString) (fs fs1 : FS) :
    filePathMiddleware.fileDir (filePathMiddleware.fileDir fileDir fs) fs1 =
      filePathMiddleware.fileDir fileDir fs := by
  by_cases h : HasPrefix fileDir ['.', '/'] = true
  · have h1 : filePathMiddleware.fileDir fileDir fs =
        Join [Getwd fs, TrimPrefix fileDir ['.', '/']] := by
      simp [filePathMiddleware.fileDir, h]
    rw [h1, Join_two _ _ (by simp [Getwd])]
    simp [Getwd, isRooted, render, filePathMiddleware.fileDir, HasPrefix]
  · have h1 : filePathMiddleware.fileDir fileDir fs = fileDir := by
      simp [filePathMiddleware.fileDir, h]
    rw [h1]
    simp [filePathMiddleware.fileDir, h]

theorem fileName_txt (D s : GoString) (h0 : s ≠ []) (h1 : HasSuffix s ['/'] = false) :
    filePathMiddleware.fileName D s = Join [D, ['/'], s] ++ ['.', 't', 'x', 't'] := by
  unfold filePathMiddleware.fileName
  rw [if_pos ⟨by simp [h1], List.length_pos.mpr h0⟩]

theorem ReadFile_of_Stat (fs : FS) (p C : GoString) (h : Stat fs p = Except.ok (Node.file C)) :
    ReadFile fs p = Except.ok C := by
  simp only [Stat] at h
  simp only [ReadFile, h]

theorem retrieveFileHandler_ok (P s : GoString) (req : Request) (st : Server) (C : GoString)
    (hreq : req.Path = P ++ s) (hidem : filePathMiddleware.fileDir st.fileDir st.fs = st.fileDir)
    (h : Stat st.fs (filePathMiddleware.fileName st.fileDir s) = Except.ok (Node.file C)) :
    retrieveFileHandler P req st =
      (Result.response 200 (Payload.contentBody { Content := C }), st) := by
  unfold retrieveFileHandler
  rw [filePathMiddleware_apply P s _ req st hreq, hidem]
  rw [fileExistsMiddleware_passes _ _ _ _ C rfl h]
  simp only [retrieveFileHandler.terminal, ReadFile_of_Stat _ _ _ h]

theorem createFileHandler_ok
    (parse : GoString → Option (GoString × List (GoString × GoString)))
    (P s : GoString) (req : Request) (st : Server) (mediaType : GoString)
    (params : List (GoString × GoString))
    (hreq : req.Path = P ++ s)
    (hparse : parse req.ContentType = some (mediaType, params))
    (hmt : mediaType = "application/json".toList)
    (hcs : params.lookup "charset".toList = some "utf-8".toList)
    (hlen : req.ContentLength > 0)
    (herr : (Decode req.Body).2 = false) (hC : (Decode req.Body).1.Content ≠ [])
    (hwf : st.fs.wf = true) (hs0 : s ≠ []) (hs1 : HasSuffix s ['/'] = false)
    (hstat : Stat st.fs
      (filePathMiddleware.fileName (filePathMiddleware.fileDir st.fileDir st.fs) s) =
      Except.error Errno.ENOENT) :
    ∃ fs1, createFileHandler parse P req st =
        (Result.response 200 Payload.done,
          { fileDir := filePathMiddleware.fileDir st.fileDir st.fs, fs := fs1 }) ∧
      Stat fs1 (filePathMiddleware.fileName (filePathMiddleware.fileDir st.fileDir st.fs) s) =
        Except.ok (Node.file (Decode req.Body).1.Content) := by
  unfold createFileHandler
  rw [filePathMiddleware_apply P s _ req st hreq]
  rw [fileNotExistsMiddleware_passes _ _
    { st with fileDir := filePathMiddleware.fileDir st.fileDir st.fs } _ rfl hstat]
  rw [contentMiddleware_pass parse _
    { req with
      Path := s
      ctxFileName := some
        (filePathMiddleware.fileName (filePathMiddleware.fileDir st.fileDir st.fs) s) }
    _ mediaType params hparse hmt hcs hlen herr hC]
  rw [fileName_txt _ s hs0 hs1] at hstat ⊢
  obtain ⟨fs3, h1, h2⟩ := createFileHandler_terminal_ok
    { req with
      Path := s
      ctxFileName := some
        (Join [filePathMiddleware.fileDir st.fileDir st.fs, ['/'], s] ++ ['.', 't', 'x', 't'])
      ctxContent := some (Decode req.Body).1.Content }
    { st with fileDir := filePathMiddleware.fileDir st.fileDir st.fs }
    _ (Decode req.Body).1.Content rfl rfl hwf hstat
  exact ⟨fs3, h1, h2⟩

theorem modifyFileHandler_ok
    (parse : GoString → Option (GoString × List (GoString × GoString)))
    (P s : GoString) (req : Request) (st : Server) (mediaType : GoString)
    (params : List (GoString × GoString)) (d : GoString)
    (hreq : req.Path = P ++ s)
    (hparse : parse req.ContentType = some (mediaType, params))
    (hmt : mediaType = "application/json".toList)
    (hcs : params.lookup "charset".toList = some "utf-8".toList)
    (hlen : req.ContentLength > 0)
    (herr : (Decode req.Body).2 = false) (hC : (Decode req.Body).1.Content ≠ [])
    (hstat : Stat st.fs
      (filePathMiddleware.fileName (filePathMiddleware.fileDir st.fileDir st.fs) s) =
      Except.ok (Node.file d)) :
    ∃ fs1, modifyFileHandler parse P req st =
        (Result.response 200 Payload.done,
          { fileDir := filePathMiddleware.fileDir st.fileDir st.fs, fs := fs1 }) ∧
      Stat fs1 (filePathMiddleware.fileName (filePathMiddleware.fileDir st.fileDir st.fs) s) =
        Except.ok (Node.file (Decode req.Body).1.Content) := by
  unfold modifyFileHandler
  rw [filePathMiddleware_apply P s _ req st hreq]
  rw [fileExistsMiddleware_passes _ _
    { st with fileDir := filePathMiddleware.fileDir st.fileDir st.fs } _ d rfl hstat]
  rw [contentMiddleware_pass parse _
    { req with
      Path := s
      ctxFileName := some
        (filePathMiddleware.fileName (filePathMiddleware.fileDir st.fileDir st.fs) s) }
    _ mediaType params hparse hmt hcs hlen herr hC]
  obtain ⟨fs2, h1, h2⟩ := modifyFileHandler_terminal_ok
    { req with
      Path := s
      ctxFileName := some
        (filePathMiddleware.fileName (filePathMiddleware.fileDir st.fileDir st.fs) s)
      ctxContent := some (Decode req.Body).1.Content }
    { st with fileDir := filePathMiddleware.fileDir st.fileDir st.fs }
    _ (Decode req.Body).1.Content d rfl rfl hstat
  exact ⟨fs2, h1, h2⟩

/-- C4: let `p` be the file name resolved for the request path `P ++ s` with `s`
file-shaped, and `C` the non-empty content decoded from a valid request body.
A Create when `os.Stat` reports that `p` does not exist, and a Modify when `p`
is a regular file with any previous content, both answer 200 and leave a state
in which reading `p` gives exactly `C` and every Retrieve of the same path
answers 200 with the content `C`. -/
theorem read_after_write
    (parse : GoString → Option (GoString × List (GoString × GoString)))
    (P s : GoString) (req : Request) (st : Server) (mediaType : GoString)
    (params : List (GoString × GoString))
    (hreq : req.Path = P ++ s)
    (hparse : parse req.ContentType = some (mediaType, params))
    (hmt : mediaType = "application/json".toList)
    (hcs : params.lookup "charset".toList = some "utf-8".toList)
    (hlen : req.ContentLength > 0)
    (herr : (Decode req.Body).2 = false) (hC : (Decode req.Body).1.Content ≠ [])
    (hwf : st.fs.wf = true) (hs0 : s ≠ []) (hs1 : HasSuffix s ['/'] = false) :
    (Stat st.fs (filePathMiddleware.fileName (filePathMiddleware.fileDir st.fileDir st.fs) s) =
        Except.error Errno.ENOENT →
      ∃ st1, createFileHandler parse P req st = (Result.response 200 Payload.done, st1) ∧
        ReadFile st1.fs
            (filePathMiddleware.fileName (filePathMiddleware.fileDir st.fileDir st.fs) s) =
          Except.ok (Decode req.Body).1.Content ∧
        ∀ req2 : Request, req2.Path = P ++ s →
          retrieveFileHandler P req2 st1 =
            (Result.response 200 (Payload.contentBody { Content := (Decode req.Body).1.Content }),
              st1)) ∧
    (∀ d : GoString,
      Stat st.fs (filePathMiddleware.fileName (filePathMiddleware.fileDir st.fileDir st.fs) s) =
        Except.ok (Node.file d) →
      ∃ st1, modifyFileHandler parse P req st = (Result.response 200 Payload.done, st1) ∧
        ReadFile st1.fs
            (filePathMiddleware.fileName (filePathMiddleware.fileDir st.fileDir st.fs) s) =
          Except.ok (Decode req.Body).1.Content ∧
        ∀ req2 : Request, req2.Path = P ++ s →
          retrieveFileHandler P req2 st1 =
            (Result.response 200 (Payload.contentBody { Content := (Decode req.Body).1.Content }),
              st1)) := by
  constructor
  · intro hstat
    obtain ⟨fs1, h1, h2⟩ := createFileHandler_ok parse P s req st mediaType params hreq hparse
      hmt hcs hlen herr hC hwf hs0 hs1 hstat
    refine ⟨_, h1, ReadFile_of_Stat _ _ _ h2, ?_⟩
    intro req2 hreq2
    exact retrieveFileHandler_ok P s req2 _ _ hreq2 (fileDir_idem _ _ _) h2
  · intro d hstat
    obtain ⟨fs1, h1, h2⟩ := modifyFileHandler_ok parse P s req st mediaType params d hreq hparse
      hmt hcs hlen herr hC hstat
    refine ⟨_, h1, ReadFile_of_Stat _ _ _ h2, ?_⟩
    intro req2 hreq2
    exact retrieveFileHandler_ok P s req2 _ _ hreq2 (fileDir_idem _ _ _) h2

/-- C4 (witness): `POST /test` on a file system without `/files/test.txt`, with
a content of three lines. -/
theorem read_after_write_witness :
    ∃ st1, createFileHandler ParseMediaType "/".toList sampleCreate sampleServer =
        (Result.response 200 Payload.done, st1) ∧
      ReadFile st1.fs
          (filePathMiddleware.fileName
            (filePathMiddleware.fileDir sampleServer.fileDir sampleServer.fs) "test".toList) =
        Except.ok (Decode sampleCreate.Body).1.Content ∧
      ∀ req2 : Request, req2.Path = "/".toList ++ "test".toList →
        retrieveFileHandler "/".toList req2 st1 =
          (Result.response 200
            (Payload.contentBody { Content := (Decode sampleCreate.Body).1.Content }), st1) :=
  (read_after_write ParseMediaType "/".toList "test".toList sampleCreate sampleServer
    "application/json".toList [("charset".toList, "utf-8".toList)] (by rfl) (by decide) (by rfl)
    (by decide) (by decide) (by decide) (by decide) (by decide) (by decide) (by decide)).1
    (by rfl)

/-- C9 (counterexample): `POST /dir/` resolves to `/files/dir/`, which does not
exist; the first Create makes the directory `/files/dir`, fails to open it as a
file and panics, answered 500 by `recoveryHandler`, and the second Create
answers 403. And on a file system where `/files/a.txt` is a regular file,
`POST /a.txt/b` resolves to `/files/a.txt/b.txt`, which does not exist;
`os.Stat` fails there with `ENOTDIR`, not with `ENOENT`, and the first Create
answers 403. -/
theorem createFileHandler_directory_path :
    Stat sampleFS "/files/dir/".toList = Except.error Errno.ENOENT ∧
      (createFileHandler ParseMediaType "/".toList sampleCreateDir sampleServer).1 =
        Result.panic ∧
      (recoveryHandler (createFileHandler ParseMediaType "/".toList) sampleCreateDir
          sampleServer).1 =
        Result.response 500 (Payload.responseError "Internal server error") ∧
      (createFileHandler ParseMediaType "/".toList sampleCreateDir
          (createFileHandler ParseMediaType "/".toList sampleCreateDir sampleServer).2).1 =
        Result.response 403 (Payload.responseError "File does exist") ∧
      sampleFSFile.wf = true ∧
      sampleFSFile.get ["files".toList, "a.txt".toList, "b.txt".toList] = none ∧
      Stat sampleFSFile "/files/a.txt/b.txt".toList = Except.error Errno.ENOTDIR ∧
      (createFileHandler ParseMediaType "/".toList sampleCreateBelowFile
          ⟨"/files".toList, sampleFSFile⟩).1 =
        Result.response 403 (Payload.responseError "File does exist") :=
  ⟨rfl, by decide, by decide, by decide, by decide, by decide, rfl, by decide⟩

/-- C9 (amended): let `p` be the file name resolved for the request path
`P ++ s` with `s` file-shaped. When `os.Stat` reports that `p` does not exist,
a Create with a valid body answers 200, a second Create for the same path,
whatever its body, answers 403 and leaves the state as it is, and `p` still
holds the content written by the first. -/
theorem createFileHandler_twice
    (parse : GoString → Option (GoString × List (GoString × GoString)))
    (P s : GoString) (req req2 : Request) (st : Server) (mediaType : GoString)
    (params : List (GoString × GoString))
    (hreq : req.Path = P ++ s) (hreq2 : req2.Path = P ++ s)
    (hparse : parse req.ContentType = some (mediaType, params))
    (hmt : mediaType = "application/json".toList)
    (hcs : params.lookup "charset".toList = some "utf-8".toList)
    (hlen : req.ContentLength > 0)
    (herr : (Decode req.Body).2 = false) (hC : (Decode req.Body).1.Content ≠ [])
    (hwf : st.fs.wf = true) (hs0 : s ≠ []) (hs1 : HasSuffix s ['/'] = false)
    (hstat : Stat st.fs
      (filePathMiddleware.fileName (filePathMiddleware.fileDir st.fileDir st.fs) s) =
      Except.error Errno.ENOENT) :
    ∃ st1, createFileHandler parse P req st = (Result.response 200 Payload.done, st1) ∧
      createFileHandler parse P req2 st1 =
        (Result.response 403 (Payload.responseError "File does exist"), st1) ∧
      ReadFile st1.fs
          (filePathMiddleware.fileName (filePathMiddleware.fileDir st.fileDir st.fs) s) =
        Except.ok (Decode req.Body).1.Content := by
  obtain ⟨fs1, h1, h2⟩ := createFileHandler_ok parse P s req st mediaType params hreq hparse
    hmt hcs hlen herr hC hwf hs0 hs1 hstat
  refine ⟨_, h1, ?_, ReadFile_of_Stat _ _ _ h2⟩
  unfold createFileHandler
  rw [filePathMiddleware_apply P s _ req2 _ hreq2]
  simp only [fileDir_idem]
  exact fileNotExistsMiddleware_blocks _ _ _ _ _ rfl h2

/-- C9 (witness): `POST /test` twice on a file system without
`/files/test.txt`. -/
theorem createFileHandler_twice_witness :
    ∃ st1, createFileHandler ParseMediaType "/".toList sampleCreate sampleServer =
        (Result.response 200 Payload.done, st1) ∧
      createFileHandler ParseMediaType "/".toList sampleCreate st1 =
        (Result.response 403 (Payload.responseError "File does exist"), st1) ∧
      ReadFile st1.fs
          (filePathMiddleware.fileName
            (filePathMiddleware.fileDir sampleServer.fileDir sampleServer.fs) "test".toList) =
        Except.ok (Decode sampleCreate.Body).1.Content :=
  createFileHandler_twice ParseMediaType "/".toList "test".toList sampleCreate sampleCreate
    sampleServer "application/json".toList [("charset".toList, "utf-8".toList)] (by rfl) (by rfl)
    (by decide) (by rfl) (by decide) (by decide) (by decide) (by decide) (by decide) (by decide)
    (by decide) (by rfl)

/-! ## Termination of the tokenizer and the statistics -/

theorem copy_length (dst src : List Nat) : (copy dst src).length = dst.length := by
  simp only [copy, List.length_append, List.length_take, List.length_drop]
  omega

theorem scan_some (xs : List Nat) (pos : Nat) (wbuf w : List Nat) (pos1 : Nat)
    (wbuf1 : List Nat) (h : scan xs pos wbuf = (some w, pos1, wbuf1)) :
    pos < pos1 ∧ pos1 ≤ pos + xs.length ∧ wbuf1 = [] := by
  induction xs generalizing pos wbuf with
  | nil => simp [scan] at h
  | cons c rest ih =>
    simp only [scan] at h
    split at h
    · split at h
      · simp only [Prod.mk.injEq, Option.some.injEq] at h
        obtain ⟨_, h2, h3⟩ := h
        subst h2
        exact ⟨by omega, by simp, h3.symm⟩
      · obtain ⟨h1, h2, h3⟩ := ih _ _ h
        simp only [List.length_cons]
        exact ⟨by omega, by omega, h3⟩
    · obtain ⟨h1, h2, h3⟩ := ih _ _ h
      simp only [List.length_cons]
      exact ⟨by omega, by omega, h3⟩

theorem scan_none (xs : List Nat) (pos : Nat) (wbuf : List Nat) (pos1 : Nat)
    (wbuf1 : List Nat) (h : scan xs pos wbuf = (none, pos1, wbuf1)) :
    pos1 = pos + xs.length ∧ (xs = [] → wbuf1 = wbuf) := by
  induction xs generalizing pos wbuf with
  | nil =>
    simp only [scan, Prod.mk.injEq, true_and] at h
    exact ⟨by simp [h.1], fun _ => h.2.symm⟩
  | cons c rest ih =>
    simp only [scan] at h
    split at h
    · split at h
      · simp at h
      · have := (ih _ _ h).1
        simp only [List.length_cons]
        exact ⟨by omega, by simp⟩
    · have := (ih _ _ h).1
      simp only [List.length_cons]
      exact ⟨by omega, by simp⟩

theorem measure_le (r : wordReader) :
    r.measure ≤ (r.reader.length + 1) * (r.rbuf.length + 1) := by
  unfold wordReader.measure
  have h1 : (r.reader.length + 1) * (r.rbuf.length + 1) =
      r.reader.length * (r.rbuf.length + 1) + (r.rbuf.length + 1) := by ring
  rw [h1]
  split <;> omega

theorem Read.loop_measure (reader : Reader) :
    ∀ (rbuf : List Nat) (pos : Nat) (wbuf w : List Nat) (r1 : wordReader),
      wordReader.Read.loop reader rbuf pos wbuf = ((w, error.nil), r1) →
      r1.rbuf.length = rbuf.length ∧
        r1.measure < (wordReader.mk reader rbuf pos wbuf).measure := by
  induction reader with
  | nil =>
    intro rbuf pos wbuf w r1 h
    simp only [wordReader.Read.loop] at h
    cases hs : scan (rbuf.drop pos) pos wbuf with
    | mk o rest =>
      obtain ⟨pos1, wbuf1⟩ := rest
      rw [hs] at h
      cases o with
      | some w1 =>
        simp only [Prod.mk.injEq] at h
        obtain ⟨_, h2⟩ := h
        subst h2
        obtain ⟨h3, h4, h5⟩ := scan_some _ _ _ _ _ _ hs
        subst h5
        simp only [List.length_drop] at h4
        refine ⟨rfl, ?_⟩
        simp only [wordReader.measure, List.length_nil, Nat.zero_mul, ↓reduceIte]
        split <;> omega
      | none =>
        simp only at h
        split at h
        · rename_i hw
          simp only [Prod.mk.injEq] at h
          obtain ⟨_, h2⟩ := h
          subst h2
          obtain ⟨h3, h4⟩ := scan_none _ _ _ _ _ hs
          simp only [List.length_drop] at h3
          refine ⟨rfl, ?_⟩
          simp only [wordReader.measure, List.length_nil, Nat.zero_mul, ↓reduceIte]
          by_cases hp : pos < rbuf.length
          · split <;> omega
          · have hnil : rbuf.drop pos = [] := List.drop_eq_nil_of_le (by omega)
            have hwb := h4 hnil
            have hne : wbuf ≠ [] := by
              rw [← hwb]
              intro h0
              rw [h0] at hw
              simp at hw
            simp only [hne, ↓reduceIte]
            omega
        · simp at h
  | cons c cs ih =>
    intro rbuf pos wbuf w r1 h
    simp only [wordReader.Read.loop] at h
    cases hs : scan (rbuf.drop pos) pos wbuf with
    | mk o rest =>
      obtain ⟨pos1, wbuf1⟩ := rest
      rw [hs] at h
      cases o with
      | some w1 =>
        simp only [Prod.mk.injEq] at h
        obtain ⟨_, h2⟩ := h
        subst h2
        obtain ⟨h3, h4, h5⟩ := scan_some _ _ _ _ _ _ hs
        subst h5
        simp only [List.length_drop] at h4
        refine ⟨rfl, ?_⟩
        simp only [wordReader.measure, ↓reduceIte]
        split <;> omega
      | none =>
        simp only at h
        obtain ⟨h1, h2⟩ := ih _ _ _ _ _ h
        rw [copy_length] at h1
        refine ⟨h1, ?_⟩
        have h3 := measure_le (wordReader.mk cs (copy rbuf c) 0 wbuf1)
        simp only [copy_length] at h3
        have h4 : (wordReader.mk (c :: cs) rbuf pos wbuf).measure ≥
            (cs.length + 1) * (rbuf.length + 1) := by
          simp only [wordReader.measure, List.length_cons]
          omega
        omega

theorem Read_measure (r : wordReader) (w : List Nat) (r1 : wordReader)
    (h : r.Read = ((w, error.nil), r1)) : r1.measure < r.measure := by
  cases r with
  | mk reader rbuf pos wbuf => exact (Read.loop_measure reader rbuf pos wbuf w r1 h).2

theorem readWords_done (fuel : Nat) (r : wordReader) (h : r.measure < fuel) :
    (readWords fuel r).2 = true := by
  induction fuel generalizing r with
  | zero => omega
  | succ fuel ih =>
    simp only [readWords]
    cases hr : r.Read with
    | mk res r1 =>
      obtain ⟨w, e⟩ := res
      cases e with
      | EOF => rfl
      | nil =>
        simp only
        have := Read_measure r w r1 hr
        exact ih r1 (by omega)

theorem readWords_readFuel (r : wordReader) : (readWords (readFuel r) r).2 = true := by
  apply readWords_done
  have := measure_le r
  unfold readFuel
  omega

theorem dirStatistics.words_eq (fuel : Nat) (r : wordReader) (alphaChars : Nat)
    (wordLens : List Nat) :
    dirStatistics.words fuel r alphaChars wordLens =
      if (readWords fuel r).2 = true then
        some (alphaChars + ((readWords fuel r).1.map List.length).sum,
          wordLens ++ (readWords fuel r).1.map List.length)
      else none := by
  induction fuel generalizing r alphaChars wordLens with
  | zero => simp [dirStatistics.words, readWords]
  | succ fuel ih =>
    simp only [dirStatistics.words, readWords]
    cases hr : r.Read with
    | mk res r1 =>
      obtain ⟨w, e⟩ := res
      cases e with
      | EOF => simp
      | nil =>
        simp only
        rw [ih]
        split
        · simp [Nat.add_assoc]
        · rfl

theorem dirStatistics.files_eq (entries : List DirEntry)
    (hopen : ∀ e ∈ entries, e.IsDir = false → e.file ≠ none)
    (numFiles totalBytes : Nat) (wordLens alphaCharsPerFile : List Nat) :
    dirStatistics.files entries (numFiles, totalBytes, wordLens, alphaCharsPerFile) =
      some (numFiles + (regularFiles entries).length,
        totalBytes + ((regularFiles entries).map (fun e => e.Size)).sum,
        wordLens ++ ((regularFiles entries).map (fun e => e.words.map List.length)).flatten,
        alphaCharsPerFile ++
          (regularFiles entries).map (fun e => (e.words.map List.length).sum)) := by
  induction entries generalizing numFiles totalBytes wordLens alphaCharsPerFile with
  | nil => simp [dirStatistics.files, regularFiles]
  | cons e rest ih =>
    have hrest : ∀ x ∈ rest, x.IsDir = false → x.file ≠ none :=
      fun x hx => hopen x (by simp [hx])
    simp only [dirStatistics.files]
    cases hd : e.IsDir with
    | true =>
      simp only [↓reduceIte]
      rw [ih hrest]
      simp [regularFiles, List.filter_cons, hd]
    | false =>
      simp only [Bool.false_eq_true, ↓reduceIte]
      cases hf : e.file with
      | none => exact absurd hf (hopen e (by simp) hd)
      | some f =>
        simp only
        rw [dirStatistics.words_eq, if_pos (readWords_readFuel _)]
        simp only
        rw [ih hrest]
        have hw : e.words = (readWords (readFuel (NewWordReader f)) (NewWordReader f)).1 := by
          simp [DirEntry.words, hf, wordsOf]
        simp [regularFiles, List.filter_cons, hd, hw, Nat.add_assoc, Nat.add_comm 1]

/-- C5: for every listing whose files can be opened, `dirStatistics` returns a
`stat` with `NumFiles` the number of entries that are not directories,
`TotalBytes` the sum of their sizes, `AvgNumAlphaCharsPerFile` and
`StdNumAlphaCharsPerFile` the mean and the deviation of the list that holds,
for each of these files, the summed lengths of the words `WordReader` yields
for it, and `AvgWordLength` and `StdWordLength` the mean and the deviation of
the list of the lengths of all these words; every file is read up to `io.EOF`,
and the directories of the listing contribute nothing. For the listing of the
test (`hi hi`, `world` and two sub-directories) the two lists are `[4, 5]` and
`[2, 2, 5]`, there are 2 files, and the means are 9/2 and 3. -/
theorem dirStatistics_spec {F : Type} (mean StandardDeviation : List Nat → F)
    (entries : List DirEntry)
    (hopen : ∀ e ∈ entries, e.IsDir = false → e.file ≠ none) :
    (∃ s, dirStatistics mean StandardDeviation (some true) (some entries) = some s ∧
        s.NumFiles = (regularFiles entries).length ∧
        s.TotalBytes = ((regularFiles entries).map (fun e => e.Size)).sum ∧
        s.AvgNumAlphaCharsPerFile =
          mean ((regularFiles entries).map (fun e => (e.words.map List.length).sum)) ∧
        s.StdNumAlphaCharsPerFile =
          StandardDeviation
            ((regularFiles entries).map (fun e => (e.words.map List.length).sum)) ∧
        s.AvgWordLength =
          mean ((regularFiles entries).map (fun e => e.words.map List.length)).flatten ∧
        s.StdWordLength =
          StandardDeviation
            ((regularFiles entries).map (fun e => e.words.map List.length)).flatten) ∧
      (∀ f : Reader, (readWords (readFuel (NewWordReader f)) (NewWordReader f)).2 = true) ∧
      (regularFiles sampleDir).map (fun e => (e.words.map List.length).sum) = [4, 5] ∧
      ((regularFiles sampleDir).map (fun e => e.words.map List.length)).flatten = [2, 2, 5] ∧
      (regularFiles sampleDir).length = 2 ∧
      Mean [4, 5] = some (9 / 2) ∧ Mean [2, 2, 5] = some 3 := by
  refine ⟨?_, fun f => readWords_readFuel _, by decide!, by decide!, by decide, ?_, ?_⟩
  · simp only [dirStatistics]
    rw [dirStatistics.files_eq entries hopen]
    simp
  · norm_num [Mean]
  · norm_num [Mean]

/-- C5 (witness): the listing of the test, with the exact rational mean. -/
theorem dirStatistics_spec_witness :
    ∃ s, dirStatistics Mean (fun _ => (none : Option ℚ)) (some true) (some sampleDir) = some s ∧
      s.NumFiles = 2 ∧ s.AvgNumAlphaCharsPerFile = some (9 / 2) ∧ s.AvgWordLength = some 3 := by
  obtain ⟨⟨s, h1, h2, _, h4, _, h6, _⟩, _, h8, h9, h10, h11, h12⟩ :=
    dirStatistics_spec Mean (fun _ => (none : Option ℚ)) sampleDir (by decide)
  exact ⟨s, h1, by rw [h2, h10], by rw [h4, h8, h11], by rw [h6, h9, h12]⟩


/-! ## End of stream and the shape of the words -/

theorem Read_of_atEOF (r : wordReader) (h : r.atEOF) : r.Read = (([], error.EOF), r) := by
  obtain ⟨reader, rbuf, pos, wbuf⟩ := r
  obtain ⟨h1, h2, h3⟩ := h
  simp only at h1 h2 h3
  subst h1 h3
  have hd : rbuf.drop pos = [] := List.drop_eq_nil_of_le h2
  simp [wordReader.Read, wordReader.Read.loop, hd, scan]

theorem afterReads_of_atEOF (r : wordReader) (h : r.atEOF) (n : Nat) : afterReads n r = r := by
  induction n with
  | zero => rfl
  | succ n ih => simp only [afterReads, Read_of_atEOF r h, ih]

theorem Read.loop_EOF (reader : Reader) :
    ∀ (rbuf : List Nat) (pos : Nat) (wbuf w : List Nat) (r1 : wordReader),
      wordReader.Read.loop reader rbuf pos wbuf = ((w, error.EOF), r1) →
      w = [] ∧ r1.atEOF := by
  induction reader with
  | nil =>
    intro rbuf pos wbuf w r1 h
    simp only [wordReader.Read.loop] at h
    cases hs : scan (rbuf.drop pos) pos wbuf with
    | mk o rest =>
      obtain ⟨pos1, wbuf1⟩ := rest
      rw [hs] at h
      cases o with
      | some w1 => simp at h
      | none =>
        simp only at h
        split at h
        · simp at h
        · rename_i hw
          simp only [Prod.mk.injEq, and_true] at h
          obtain ⟨h1, h2⟩ := h
          subst h2
          obtain ⟨h3, _⟩ := scan_none _ _ _ _ _ hs
          simp only [List.length_drop] at h3
          refine ⟨h1.symm, rfl, ?_, ?_⟩
          · simp only; omega
          · simp only
            exact List.length_eq_zero.mp (by omega)
  | cons c cs ih =>
    intro rbuf pos wbuf w r1 h
    simp only [wordReader.Read.loop] at h
    cases hs : scan (rbuf.drop pos) pos wbuf with
    | mk o rest =>
      obtain ⟨pos1, wbuf1⟩ := rest
      rw [hs] at h
      cases o with
      | some w1 => simp at h
      | none => exact ih _ _ _ _ _ h

theorem Read.loop_word_state (reader : Reader) :
    ∀ (rbuf : List Nat) (pos : Nat) (wbuf w : List Nat) (r1 : wordReader),
      wordReader.Read.loop reader rbuf pos wbuf = ((w, error.nil), r1) → r1.wbuf = [] := by
  induction reader with
  | nil =>
    intro rbuf pos wbuf w r1 h
    simp only [wordReader.Read.loop] at h
    cases hs : scan (rbuf.drop pos) pos wbuf with
    | mk o rest =>
      obtain ⟨pos1, wbuf1⟩ := rest
      rw [hs] at h
      cases o with
      | some w1 =>
        simp only [Prod.mk.injEq] at h
        obtain ⟨_, h2⟩ := h
        subst h2
        exact (scan_some _ _ _ _ _ _ hs).2.2
      | none =>
        simp only at h
        split at h
        · simp only [Prod.mk.injEq] at h
          obtain ⟨_, h2⟩ := h
          subst h2
          rfl
        · simp at h
  | cons c cs ih =>
    intro rbuf pos wbuf w r1 h
    simp only [wordReader.Read.loop] at h
    cases hs : scan (rbuf.drop pos) pos wbuf with
    | mk o rest =>
      obtain ⟨pos1, wbuf1⟩ := rest
      rw [hs] at h
      cases o with
      | some w1 =>
        simp only [Prod.mk.injEq] at h
        obtain ⟨_, h2⟩ := h
        subst h2
        exact (scan_some _ _ _ _ _ _ hs).2.2
      | none => exact ih _ _ _ _ _ h


/-- C12: once `Read` has returned `io.EOF`, the string it returned is empty and
every later call returns the empty string with `io.EOF`, the reader staying as
it is; when `Read` returns a word and leaves the underlying reader used up and
the buffer read to its end, every later call returns the empty string with
`io.EOF`, so that the word is returned once; and when the underlying reader is
used up and the scan of the unread part of the buffer ends with a word pending,
`Read` returns that word, and then the empty string with `io.EOF` ever after. -/
theorem Read_EOF_sticky (r : wordReader) :
    (∀ w r1, r.Read = ((w, error.EOF), r1) →
        w = [] ∧ ∀ n, (afterReads n r1).Read = (([], error.EOF), r1)) ∧
      (∀ w r1, r.Read = ((w, error.nil), r1) → r1.reader = [] → r1.rbuf.length ≤ r1.pos →
        ∀ n, (afterReads n r1).Read = (([], error.EOF), r1)) ∧
      (∀ pos1 wbuf1, r.reader = [] →
        scan (r.rbuf.drop r.pos) r.pos r.wbuf = (none, pos1, wbuf1) → wbuf1 ≠ [] →
        r.Read = ((wbuf1, error.nil), ⟨[], r.rbuf, pos1, []⟩) ∧
          ∀ n, (afterReads n ⟨[], r.rbuf, pos1, []⟩).Read =
            (([], error.EOF), ⟨[], r.rbuf, pos1, []⟩)) := by
  have hsticky : ∀ r1 : wordReader, r1.atEOF →
      ∀ n, (afterReads n r1).Read = (([], error.EOF), r1) := by
    intro r1 h n
    rw [afterReads_of_atEOF r1 h n]
    exact Read_of_atEOF r1 h
  refine ⟨?_, ?_, ?_⟩
  · intro w r1 h
    obtain ⟨h1, h2⟩ := Read.loop_EOF r.reader r.rbuf r.pos r.wbuf w r1 h
    exact ⟨h1, hsticky r1 h2⟩
  · intro w r1 h h1 h2
    exact hsticky r1 ⟨h1, h2, Read.loop_word_state r.reader r.rbuf r.pos r.wbuf w r1 h⟩
  · intro pos1 wbuf1 h1 hs hw
    obtain ⟨reader, rbuf, pos, wbuf⟩ := r
    simp only at h1 hs
    subst h1
    have hlen : wbuf1.length > 0 := List.length_pos.mpr hw
    refine ⟨by simp [wordReader.Read, wordReader.Read.loop, hs, hlen], ?_⟩
    apply hsticky
    obtain ⟨h3, _⟩ := scan_none _ _ _ _ _ hs
    simp only [List.length_drop] at h3
    exact ⟨rfl, by simp only; omega, rfl⟩

/-- C12 (witness): a reader over a stream of 1024 letters `a`: the first `Read`
returns the word buffered when the stream ends, the calls after it return the
empty string with `io.EOF`. -/
theorem Read_EOF_sticky_witness :
    (afterReads 3 (NewWordReader [List.replicate 1024 97]).Read.2).Read =
      (([], error.EOF), (NewWordReader [List.replicate 1024 97]).Read.2) :=
  (Read_EOF_sticky (NewWordReader [List.replicate 1024 97])).2.1
    (List.replicate 1024 97) _ (by decide!) (by decide!) (by decide!) 3

theorem process_ne_zero (c : Nat) (h : process c ≠ 0) :
    process c = c ∧ isLetter c = true := by
  unfold process at h ⊢
  unfold isLetter
  split
  · rename_i h1
    exact ⟨rfl, by simp [h1.1, h1.2]⟩
  · split
    · rename_i h1 h2
      refine ⟨rfl, ?_⟩
      simp only [Bool.or_eq_true, Bool.and_eq_true, decide_eq_true_eq]
      right
      exact ⟨h2.1, h2.2⟩
    · rename_i h1 h2
      simp [h1, h2] at h

theorem lettersOnly_append (w : List Nat) (c : Nat) (hw : lettersOnly w = true)
    (hc : isLetter c = true) : lettersOnly (w ++ [c]) = true := by
  simp only [lettersOnly, List.all_append, List.all_cons, List.all_nil, Bool.and_true,
    Bool.and_eq_true] at hw ⊢
  exact ⟨hw, hc⟩

theorem scan_letters (xs : List Nat) (pos : Nat) (wbuf : List Nat) (o : Option (List Nat))
    (pos1 : Nat) (wbuf1 : List Nat) (hw : lettersOnly wbuf = true)
    (h : scan xs pos wbuf = (o, pos1, wbuf1)) :
    lettersOnly wbuf1 = true ∧ ∀ w, o = some w → w ≠ [] ∧ lettersOnly w = true := by
  induction xs generalizing pos wbuf with
  | nil =>
    simp only [scan, Prod.mk.injEq] at h
    obtain ⟨h1, _, h3⟩ := h
    subst h1 h3
    exact ⟨hw, fun w hw1 => Option.noConfusion hw1⟩
  | cons c rest ih =>
    simp only [scan] at h
    split at h
    · split at h
      · rename_i hlen
        simp only [Prod.mk.injEq] at h
        obtain ⟨h1, _, h3⟩ := h
        subst h1 h3
        refine ⟨rfl, fun w hw1 => ?_⟩
        simp only [Option.some.injEq] at hw1
        subst hw1
        exact ⟨List.length_pos.mp hlen, hw⟩
      · exact ih _ _ hw h
    · rename_i hp
      have hc := process_ne_zero c hp
      exact ih _ _ (lettersOnly_append _ _ hw (by rw [hc.1]; exact hc.2)) h

theorem Read.loop_letters (reader : Reader) :
    ∀ (rbuf : List Nat) (pos : Nat) (wbuf w : List Nat) (e : error) (r1 : wordReader),
      lettersOnly wbuf = true →
      wordReader.Read.loop reader rbuf pos wbuf = ((w, e), r1) →
      lettersOnly r1.wbuf = true ∧ (e = error.nil → w ≠ [] ∧ lettersOnly w = true) := by
  induction reader with
  | nil =>
    intro rbuf pos wbuf w e r1 hw h
    simp only [wordReader.Read.loop] at h
    cases hs : scan (rbuf.drop pos) pos wbuf with
    | mk o rest =>
      obtain ⟨pos1, wbuf1⟩ := rest
      rw [hs] at h
      obtain ⟨h1, h2⟩ := scan_letters _ _ _ _ _ _ hw hs
      cases o with
      | some w1 =>
        simp only [Prod.mk.injEq] at h
        obtain ⟨⟨h3, _⟩, h5⟩ := h
        subst h3 h5
        exact ⟨h1, fun _ => h2 _ rfl⟩
      | none =>
        simp only at h
        split at h
        · rename_i hlen
          simp only [Prod.mk.injEq] at h
          obtain ⟨⟨h3, _⟩, h5⟩ := h
          subst h3 h5
          exact ⟨rfl, fun _ => ⟨List.length_pos.mp hlen, h1⟩⟩
        · simp only [Prod.mk.injEq] at h
          obtain ⟨⟨_, h4⟩, h5⟩ := h
          subst h4 h5
          exact ⟨h1, fun he => error.noConfusion he⟩
  | cons c cs ih =>
    intro rbuf pos wbuf w e r1 hw h
    simp only [wordReader.Read.loop] at h
    cases hs : scan (rbuf.drop pos) pos wbuf with
    | mk o rest =>
      obtain ⟨pos1, wbuf1⟩ := rest
      rw [hs] at h
      obtain ⟨h1, h2⟩ := scan_letters _ _ _ _ _ _ hw hs
      cases o with
      | some w1 =>
        simp only [Prod.mk.injEq] at h
        obtain ⟨⟨h3, _⟩, h5⟩ := h
        subst h3 h5
        exact ⟨h1, fun _ => h2 _ rfl⟩
      | none => exact ih _ _ _ _ _ _ h1 h

theorem afterReads_letters (n : Nat) (r : wordReader) (h : lettersOnly r.wbuf = true) :
    lettersOnly (afterReads n r).wbuf = true := by
  induction n generalizing r with
  | zero => exact h
  | succ n ih =>
    simp only [afterReads]
    apply ih
    exact (Read.loop_letters r.reader r.rbuf r.pos r.wbuf _ _ _ h rfl).1

/-- C13: for every underlying reader, that is for every stream and every way
of delivering it in chunks, and for every `n`, the call of `Read` that follows
`n` earlier calls on a new `WordReader` returns, when its error is nil, a
non-empty string made of ASCII letters only; when it returns the empty string,
its error is `io.EOF`. -/
theorem Read_word_shape (f : Reader) (n : Nat) :
    ((afterReads n (NewWordReader f)).Read.1.2 = error.nil →
        (afterReads n (NewWordReader f)).Read.1.1 ≠ [] ∧
          lettersOnly (afterReads n (NewWordReader f)).Read.1.1 = true) ∧
      ((afterReads n (NewWordReader f)).Read.1.1 = [] →
        (afterReads n (NewWordReader f)).Read.1.2 = error.EOF) := by
  have hinv : lettersOnly (afterReads n (NewWordReader f)).wbuf = true :=
    afterReads_letters n _ rfl
  have h := (Read.loop_letters _ _ _ _ _ _ _ hinv
    (rfl : (afterReads n (NewWordReader f)).Read = _)).2
  refine ⟨h, fun h0 => ?_⟩
  cases he : (afterReads n (NewWordReader f)).Read.1.2 with
  | EOF => rfl
  | nil => exact absurd h0 (h he).1

/-- C13 (witness): the second `Read` on the stream `hello\nworld 10`, which
returns `world`. -/
theorem Read_word_shape_witness :
    (afterReads 1 (NewWordReader (bytesReader 1024 (bytes "hello\nworld 10")))).Read.1.1 =
        bytes "world" ∧
      lettersOnly
        (afterReads 1 (NewWordReader (bytesReader 1024 (bytes "hello\nworld 10")))).Read.1.1 =
        true :=
  ⟨by decide!,
    ((Read_word_shape (bytesReader 1024 (bytes "hello\nworld 10")) 1).1 (by decide!)).2⟩


/-! ## The root directory over a sequence of requests -/

theorem fileDir_relative (d : GoString) (fs : FS) :
    filePathMiddleware.fileDir ('.' :: '/' :: d) fs = Join [Getwd fs, d] := by
  simp [filePathMiddleware.fileDir, HasPrefix, TrimPrefix]

theorem fileDir_fixed (d : GoString) (fs fs1 : FS) :
    filePathMiddleware.fileDir (Join [Getwd fs, d]) fs1 = Join [Getwd fs, d] := by
  rw [← fileDir_relative d fs]
  exact fileDir_idem _ fs fs1

theorem serveFrom_fixed (P D : GoString) (hD : ∀ fs, filePathMiddleware.fileDir D fs = D)
    (rest : List (List GoString × GoString)) (fs : FS) :
    serveFrom (filePathMiddleware P echoFileName) ⟨D, fs⟩
        (rest.map (fun x => (x.1, getRequest (P ++ x.2)))) =
      rest.map (fun x =>
        Result.response 200 (Payload.text (filePathMiddleware.fileName D x.2))) := by
  induction rest generalizing fs with
  | nil => rfl
  | cons x rest ih =>
    simp only [List.map_cons, serveFrom]
    rw [filePathMiddleware_apply P x.2 echoFileName (getRequest (P ++ x.2)) _ rfl]
    simp only [hD, echoFileName, Option.getD_some]
    rw [ih]

/-- C11 (counterexample): a handler with the root `./d` serves `/x` in the
working directory `/srv` and then, the working directory having changed to
`/tmp`, serves `/x` again: both requests are resolved to `/srv/d/x.txt`, while
the join of the new working directory, `d` and the suffix is `/tmp/d/x.txt`. -/
theorem filePathMiddleware_ignores_new_working_directory :
    serveFrom (filePathMiddleware "/".toList echoFileName) ⟨"./d".toList, sampleFS⟩
        [(["srv".toList], getRequest "/x".toList), (["tmp".toList], getRequest "/x".toList)] =
        [Result.response 200 (Payload.text "/srv/d/x.txt".toList),
          Result.response 200 (Payload.text "/srv/d/x.txt".toList)] ∧
      filePathMiddleware.fileName
          (Join [Getwd (Chdir sampleFS ["tmp".toList]), "d".toList]) "x".toList =
        "/tmp/d/x.txt".toList := by
  decide

/-- C11 (amended): over every sequence of requests served by one handler built
with the relative root `./d`, whatever the working directory is when each of
them is handled, every request with the path `P ++ s` is resolved to the file
name made from the join of the working directory that was current when the
first request was handled, `d` and `s`: the handler keeps the directory it
computed for its first request. -/
theorem filePathMiddleware_keeps_first_directory (P d : GoString) (fs : FS)
    (wd0 : List GoString) (s0 : GoString) (rest : List (List GoString × GoString)) :
    serveFrom (filePathMiddleware P echoFileName) ⟨'.' :: '/' :: d, fs⟩
        (((wd0, s0) :: rest).map (fun x => (x.1, getRequest (P ++ x.2)))) =
      ((wd0, s0) :: rest).map (fun x =>
        Result.response 200
          (Payload.text (filePathMiddleware.fileName (Join [Getwd (Chdir fs wd0), d]) x.2))) := by
  simp only [List.map_cons, serveFrom]
  rw [filePathMiddleware_apply P s0 echoFileName (getRequest (P ++ s0)) _ rfl]
  simp only [fileDir_relative, echoFileName, Option.getD_some]
  rw [serveFrom_fixed P _ (fun fs1 => fileDir_fixed d _ fs1)]

end TextFiles
